import Mathlib

/- Verification development for the HMIC-A media tools: the per-row spatial
run-length encoder and the textual command renderer (con.cpp
`process_frame_rows_parallel`, player `render_frame`), the temporal merge
pass (`build_hmic_data`), the audio run-length codec
(`compress_channel_data` / `parse_audio_channel`), the HMICFAST binary
container (`write_hmicfast_binary` / `load_hmicfast` / `get_frame_data`),
the playback seek and audio drift-correction logic (play.cpp), and the
text-container frame-range guard (`parse_hmicav`). -/

namespace Hmic

/-- RGBA pixel, four 8-bit channels (`struct RGBA` in con.cpp).  The claims
under verification only compare channel values for equality and order, so the
channels are carried as `Nat`. -/
structure RGBA where
  r : Nat
  g : Nat
  b : Nat
  a : Nat
deriving DecidableEq

/-- Lexicographic color order, `RGBA::operator<` in con.cpp (used as the
`std::map` key order). -/
def RGBA.ltb (p q : RGBA) : Bool :=
  if p.r ≠ q.r then decide (p.r < q.r)
  else if p.g ≠ q.g then decide (p.g < q.g)
  else if p.b ≠ q.b then decide (p.b < q.b)
  else decide (p.a < q.a)

/-- Parsed content of the textual command field.  The C++ `Command::cmd`
string is `"P=XxY"` or `"PL=X1xY1-X2xY2"` with 1-based decimal coordinates;
building and re-parsing the decimal text (`std::to_string` / `std::stoi`) is
an injective rendering of exactly these components, so the field is modelled
by its parsed components. -/
inductive CmdText where
  | P (x y : Nat)
  | PL (x1 y1 x2 y2 : Nat)
deriving DecidableEq

/-- `struct Command` of con.cpp: the textual form plus the 0-based numeric
span `x..end_x` on row `y`.  The encoder only ever produces nonnegative
coordinates, carried as `Nat`. -/
structure Command where
  cmd : CmdText
  x : Nat
  endX : Nat
  y : Nat
deriving DecidableEq

/-- Length of the run of pixels equal to `c` at the head of the list: the
inner `while` loop of `process_frame_rows_parallel` counts
`run_length - 1` such pixels after the first. -/
def runLen (c : RGBA) : List RGBA → Nat
  | [] => 0
  | p :: t => if p = c then runLen c t + 1 else 0

theorem runLen_le_length (c : RGBA) (l : List RGBA) : runLen c l ≤ l.length := by
  induction l with
  | nil => simp [runLen]
  | cons p t ih =>
    simp only [runLen, List.length_cons]
    split <;> omega

theorem runLen_getElem (c : RGBA) (l : List RGBA) :
    ∀ i, i < runLen c l → l[i]? = some c := by
  induction l with
  | nil => simp [runLen]
  | cons p t ih =>
    intro i hi
    simp only [runLen] at hi
    by_cases hp : p = c
    · subst hp
      cases i with
      | zero => simp
      | succ j =>
        simp only [if_true] at hi
        have := ih j (by omega)
        simpa using this
    · simp [hp] at hi

/-- One row of the spatial encoder (`process_frame_rows_parallel`, body of
the `for (int y ...)` loop): `l` is the row suffix starting at column `x`,
`y` is the row index.  A run of length 1 becomes a `P` command, a longer run
becomes a `PL` command spanning `x .. x+k` (0-based), with 1-based text. -/
def process_frame_row (y : Nat) : Nat → List RGBA → List (RGBA × Command)
  | _, [] => []
  | x, c :: rest =>
    let k := runLen c rest
    let txt : CmdText :=
      if k = 0 then .P (x + 1) (y + 1)
      else .PL (x + 1) (y + 1) (x + k + 1) (y + 1)
    (c, ⟨txt, x, x + k, y⟩) :: process_frame_row y (x + k + 1) (rest.drop k)
termination_by _ l => l.length
decreasing_by simp only [List.length_drop, List.length_cons]; omega

/-- All rows of one frame, sequentially: the parallel row partition of
`main` in con.cpp assigns disjoint row ranges to workers and merges the
per-worker results in worker order, which yields exactly the sequential
row-by-row emission order. -/
def process_frame_rows (y : Nat) : List (List RGBA) → List (RGBA × Command)
  | [] => []
  | row :: rest => process_frame_row y 0 row ++ process_frame_rows (y + 1) rest

/-- Insertion into the ordered color map `std::map<RGBA, std::vector<Command>>`:
new colors enter at their ordered position, existing colors append to their
command vector. -/
def mapInsert (col : RGBA) (c : Command) :
    List (RGBA × List Command) → List (RGBA × List Command)
  | [] => [(col, [c])]
  | (k, l) :: t =>
    if col = k then (k, l ++ [c]) :: t
    else if RGBA.ltb col k then (col, [c]) :: (k, l) :: t
    else (k, l) :: mapInsert col c t

/-- The per-frame output of the spatial encoder: every emitted
`(color, command)` pair inserted into the color map in emission order. -/
def encodeFrame (frame : List (List RGBA)) : List (RGBA × List Command) :=
  (process_frame_rows 0 frame).foldl (fun m p => mapInsert p.1 p.2 m) []

/-- All `(color, command)` pairs of a frame map in iteration order. -/
def framePairs (fm : List (RGBA × List Command)) : List (RGBA × Command) :=
  fm.flatMap (fun e => e.2.map (fun c => (e.1, c)))

theorem framePairs_mapInsert (col : RGBA) (c : Command)
    (m : List (RGBA × List Command)) :
    List.Perm (framePairs (mapInsert col c m)) ((col, c) :: framePairs m) := by
  induction m with
  | nil => simp [mapInsert, framePairs]
  | cons e t ih =>
    obtain ⟨k, l⟩ := e
    by_cases hk : col = k
    · subst hk
      have heq : mapInsert col c ((col, l) :: t) = (col, l ++ [c]) :: t := by
        simp [mapInsert]
      rw [heq]
      simp only [framePairs, List.flatMap_cons, List.map_append, List.map_cons,
        List.map_nil, List.append_assoc, List.singleton_append]
      exact List.perm_middle
    · by_cases hlt : RGBA.ltb col k
      · simp [mapInsert, hk, hlt, framePairs]
      · have heq : mapInsert col c ((k, l) :: t) = (k, l) :: mapInsert col c t := by
          simp [mapInsert, hk, hlt]
        rw [heq]
        simp only [framePairs, List.flatMap_cons]
        exact List.Perm.trans (List.Perm.append_left _ ih) List.perm_middle

theorem framePairs_foldl (ps : List (RGBA × Command)) (m : List (RGBA × List Command)) :
    List.Perm (framePairs (ps.foldl (fun m p => mapInsert p.1 p.2 m) m))
      (ps ++ framePairs m) := by
  induction ps generalizing m with
  | nil => simp
  | cons p t ih =>
    simp only [List.foldl_cons, List.cons_append]
    refine List.Perm.trans (ih _) ?_
    refine List.Perm.trans (List.Perm.append_left _ (framePairs_mapInsert _ _ _)) ?_
    exact List.perm_middle

/-- The encoder output of a frame holds, up to permutation, exactly the pairs
emitted row by row. -/
theorem framePairs_encodeFrame (frame : List (List RGBA)) :
    List.Perm (framePairs (encodeFrame frame)) (process_frame_rows 0 frame) := by
  have h := framePairs_foldl (process_frame_rows 0 frame) []
  simpa [encodeFrame, framePairs] using h

/-- A command covers column `x` of row `y` when `y` is its row and `x` lies in
its 0-based numeric span. -/
def covers (c : Command) (x y : Nat) : Bool :=
  decide (c.y = y) && decide (c.x ≤ x) && decide (x ≤ c.endX)

/-- Well-formed textual rendering: the `cmd` string of an encoder-produced
command is the 1-based rendering of its numeric span. -/
def wfCmd (c : Command) : Prop :=
  (c.x = c.endX ∧ c.cmd = .P (c.x + 1) (c.y + 1)) ∨
  (c.x < c.endX ∧ c.cmd = .PL (c.x + 1) (c.y + 1) (c.endX + 1) (c.y + 1))

/-- Every pair emitted for one row carries that row index, a span inside the
encoded suffix, a well-formed text, and the span's pixels all have the pair's
color. -/
theorem process_frame_row_mem (y x : Nat) (l : List RGBA) :
    ∀ p ∈ process_frame_row y x l,
      p.2.y = y ∧ x ≤ p.2.x ∧ p.2.x ≤ p.2.endX ∧ p.2.endX < x + l.length ∧
      wfCmd p.2 ∧ ∀ i, p.2.x ≤ i → i ≤ p.2.endX → l[i - x]? = some p.1 := by
  induction x, l using process_frame_row.induct y with
  | case1 x => simp [process_frame_row]
  | case2 x c rest k ih =>
    intro p hp
    rw [process_frame_row] at hp
    rcases List.mem_cons.mp hp with h | h
    · subst h
      dsimp only
      have hk : runLen c rest ≤ rest.length := runLen_le_length c rest
      refine ⟨rfl, Nat.le_refl _, by omega, by simp; omega, ?_, ?_⟩
      · simp only [wfCmd]
        by_cases h0 : runLen c rest = 0
        · left
          simp [h0]
        · right
          refine ⟨by omega, ?_⟩
          simp [if_neg h0]
      · intro i hxi hik
        rcases Nat.eq_or_lt_of_le hxi with h | h
        · simp [← h]
        · obtain ⟨j, hj⟩ : ∃ j, i - x = j + 1 := ⟨i - x - 1, by omega⟩
          rw [hj, List.getElem?_cons_succ]
          exact runLen_getElem c rest j (by omega)
    · have hk : runLen c rest ≤ rest.length := runLen_le_length c rest
      obtain ⟨h1, h2, h3, h4, h5, h6⟩ := ih p h
      refine ⟨h1, by omega, h3, ?_, h5, ?_⟩
      · simp only [List.length_drop] at h4
        simp only [List.length_cons]
        omega
      · intro i hxi hik
        have hx' : x + runLen c rest + 1 ≤ i := by omega
        have := h6 i hxi hik
        rw [List.getElem?_drop] at this
        obtain ⟨j, hj⟩ : ∃ j, i - x = j + 1 := ⟨i - x - 1, by omega⟩
        rw [hj, List.getElem?_cons_succ]
        have hidx : runLen c rest + (i - (x + runLen c rest + 1)) = j := by omega
        rw [hidx] at this
        exact this

/-- Coverage count for one encoded row: every column of the encoded suffix is
covered by exactly one emitted command, columns outside it by none. -/
theorem process_frame_row_countP (y x : Nat) (l : List RGBA) (i y' : Nat) :
    (process_frame_row y x l).countP (fun p => covers p.2 i y') =
      if y' = y ∧ x ≤ i ∧ i < x + l.length then 1 else 0 := by
  induction x, l using process_frame_row.induct y with
  | case1 x =>
    simp only [process_frame_row, List.countP_nil, List.length_nil, Nat.add_zero]
    split_ifs <;> omega
  | case2 x c rest k ih =>
    have hk : runLen c rest ≤ rest.length := runLen_le_length c rest
    rw [process_frame_row, List.countP_cons, ih]
    dsimp only
    simp only [covers, decide_eq_true_eq, Bool.and_eq_true, List.length_drop,
      List.length_cons]
    split_ifs <;> omega

/-- Row membership data for all rows of a frame from starting row `y0`. -/
theorem process_frame_rows_mem (L : List (List RGBA)) (y0 : Nat) :
    ∀ p ∈ process_frame_rows y0 L,
      wfCmd p.2 ∧ y0 ≤ p.2.y ∧ p.2.y < y0 + L.length ∧ p.2.x ≤ p.2.endX ∧
      ∃ row, L[p.2.y - y0]? = some row ∧ p.2.endX < row.length ∧
        ∀ i, p.2.x ≤ i → i ≤ p.2.endX → row[i]? = some p.1 := by
  induction L generalizing y0 with
  | nil => simp [process_frame_rows]
  | cons row rest ih =>
    intro p hp
    rw [process_frame_rows] at hp
    rcases List.mem_append.mp hp with h | h
    · obtain ⟨h1, h2, h3, h4, h5, h6⟩ := process_frame_row_mem y0 0 row p h
      refine ⟨h5, by omega, by simp; omega, h3, row, ?_, by omega, ?_⟩
      · rw [h1]
        simp
      · intro i hxi hik
        have := h6 i hxi hik
        simpa using this
    · obtain ⟨h1, h2, h3, h4, rowp, h5, h6, h7⟩ := ih (y0 + 1) p h
      refine ⟨h1, by omega, by simp; omega, h4, rowp, ?_, h6, h7⟩
      obtain ⟨j, hj⟩ : ∃ j, p.2.y - y0 = j + 1 := ⟨p.2.y - y0 - 1, by omega⟩
      rw [hj, List.getElem?_cons_succ]
      have : p.2.y - (y0 + 1) = j := by omega
      rw [this] at h5
      exact h5

/-- Coverage count over all rows of a frame whose rows all have width `w`. -/
theorem process_frame_rows_countP (L : List (List RGBA)) (y0 : Nat) (w : Nat)
    (hw : ∀ row ∈ L, row.length = w) (x y : Nat) :
    (process_frame_rows y0 L).countP (fun p => covers p.2 x y) =
      if y0 ≤ y ∧ y < y0 + L.length ∧ x < w then 1 else 0 := by
  induction L generalizing y0 with
  | nil =>
    simp only [process_frame_rows, List.countP_nil, List.length_nil, Nat.add_zero]
    split_ifs <;> omega
  | cons row rest ih =>
    rw [process_frame_rows, List.countP_append,
      process_frame_row_countP y0 0 row x y,
      ih (y0 + 1) (fun r hr => hw r (List.mem_cons_of_mem _ hr))]
    have hrow : row.length = w := hw row (List.mem_cons_self _ _)
    simp only [List.length_cons, hrow]
    split_ifs <;> omega

/-- Claim C3: for every encoded frame and every row `y` below the height, the
spans of the commands emitted for that row (over all colors) cover the columns
`[0, w)` exactly once — every in-range column is covered by exactly one
command and no command covers a column at or past `w`. -/
theorem spatial_row_partition (frame : List (List RGBA)) (w h : Nat)
    (hh : frame.length = h) (hw : ∀ row ∈ frame, row.length = w)
    (y : Nat) (hy : y < h) (x : Nat) :
    (framePairs (encodeFrame frame)).countP (fun p => covers p.2 x y) =
      if x < w then 1 else 0 := by
  rw [List.Perm.countP_eq _ (framePairs_encodeFrame frame),
    process_frame_rows_countP frame 0 w hw x y]
  split_ifs <;> omega

/-- Player surface: list of pixel rows.  The C++ surface is a flat
`w*h` pixel array indexed `y*w + x`; with uniform row width the two views
coincide. -/
def getPx (surf : List (List RGBA)) (x y : Nat) : Option RGBA :=
  (surf[y]?.getD [])[x]?

/-- The surface has height `h` and every row has width `w`. -/
def dims (surf : List (List RGBA)) (w h : Nat) : Prop :=
  surf.length = h ∧ ∀ row ∈ surf, row.length = w

/-- `draw_pixel` of the player (part_000): bounds-checked single-pixel
write.  The C++ guard rejects `x < 0 || x >= w || y < 0 || y >= h`; here the
negative checks are the explicit condition and the upper bounds are the
out-of-range no-op of `List.set` (rows have width `w` and the surface height
`h` in every use below). -/
def draw_pixel (surf : List (List RGBA)) (x y : Int) (col : RGBA) :
    List (List RGBA) :=
  if 0 ≤ x ∧ 0 ≤ y then
    surf.set y.toNat ((surf[y.toNat]?.getD []).set x.toNat col)
  else surf

/-- The horizontal branch of the player's `draw_line`
(`for (int x = x1; x <= x2; x++) draw_pixel(...)`), unrolled as `n` pixel
writes starting at `x1`. -/
def draw_hline_n (x1 y : Int) (col : RGBA) : Nat → List (List RGBA) → List (List RGBA)
  | 0, surf => surf
  | n + 1, surf => draw_pixel (draw_hline_n x1 y col n surf) (x1 + n) y col

/-- Horizontal line fill from `x1` to `x2` inclusive (empty when `x1 > x2`). -/
def draw_hline (surf : List (List RGBA)) (x1 x2 y : Int) (col : RGBA) :
    List (List RGBA) :=
  draw_hline_n x1 y col (x2 + 1 - x1).toNat surf

/-- The Bresenham branch of the player's `draw_line`, with explicit fuel;
it is only reached for non-horizontal lines, which the encoder never emits. -/
def bres_line : Nat → List (List RGBA) → Int → Int → Int → Int → Int → Int →
    Int → Int → Int → RGBA → List (List RGBA)
  | 0, surf, _, _, _, _, _, _, _, _, _, _ => surf
  | fuel + 1, surf, x1, y1, x2, y2, dx, dy, sx, sy, err, col =>
    let surf2 := draw_pixel surf x1 y1 col
    if x1 = x2 ∧ y1 = y2 then surf2
    else
      let e2 := 2 * err
      let x1b := if e2 > -dy then x1 + sx else x1
      let errb := if e2 > -dy then err - dy else err
      let y1b := if e2 < dx then y1 + sy else y1
      let errc := if e2 < dx then errb + dx else errb
      bres_line fuel surf2 x1b y1b x2 y2 dx dy sx sy errc col

/-- `draw_line` of the player: horizontal fill when `y1 == y2`, Bresenham
otherwise. -/
def draw_line (surf : List (List RGBA)) (x1 y1 x2 y2 : Int) (col : RGBA) :
    List (List RGBA) :=
  if y1 = y2 then draw_hline surf x1 x2 y1 col
  else
    bres_line ((x2 - x1).natAbs + (y2 - y1).natAbs + 1) surf x1 y1 x2 y2
      ((x2 - x1).natAbs) ((y2 - y1).natAbs)
      (if x1 < x2 then 1 else -1) (if y1 < y2 then 1 else -1)
      (((x2 - x1).natAbs : Int) - ((y2 - y1).natAbs : Int)) col

/-- One command of `render_frame` in the player: parse the textual
coordinates, subtract 1, and draw. -/
def render_command (col : RGBA) (c : CmdText) (surf : List (List RGBA)) :
    List (List RGBA) :=
  match c with
  | .P px py => draw_pixel surf ((px : Int) - 1) ((py : Int) - 1) col
  | .PL x1 y1 x2 y2 =>
      draw_line surf ((x1 : Int) - 1) ((y1 : Int) - 1) ((x2 : Int) - 1)
        ((y2 : Int) - 1) col

/-- `render_frame` of the player: replay every command of every color bucket
in map iteration order. -/
def render_frame (fm : List (RGBA × List Command)) (surf : List (List RGBA)) :
    List (List RGBA) :=
  fm.foldl (fun s e => e.2.foldl (fun s2 c => render_command e.1 c.cmd s2) s) surf

/-- Replay of a flat pair list, the flattened form of `render_frame`. -/
def renderPairs : List (RGBA × Command) → List (List RGBA) → List (List RGBA)
  | [], surf => surf
  | p :: t, surf => renderPairs t (render_command p.1 p.2.cmd surf)

theorem renderPairs_append (a b : List (RGBA × Command)) (surf : List (List RGBA)) :
    renderPairs (a ++ b) surf = renderPairs b (renderPairs a surf) := by
  induction a generalizing surf with
  | nil => rfl
  | cons p t ih =>
    simp only [List.cons_append, renderPairs]
    exact ih _

theorem renderPairs_map_color (col : RGBA) (l : List Command) (surf : List (List RGBA)) :
    renderPairs (l.map (fun c => (col, c))) surf =
      l.foldl (fun s c => render_command col c.cmd s) surf := by
  induction l generalizing surf with
  | nil => rfl
  | cons c t ih => simp only [List.map_cons, renderPairs, List.foldl_cons, ih]

theorem render_frame_eq_renderPairs (fm : List (RGBA × List Command))
    (surf : List (List RGBA)) :
    render_frame fm surf = renderPairs (framePairs fm) surf := by
  induction fm generalizing surf with
  | nil => rfl
  | cons e t ih =>
    simp only [render_frame, List.foldl_cons, framePairs, List.flatMap_cons,
      renderPairs_append, renderPairs_map_color]
    exact ih _

theorem dims_draw_pixel {surf : List (List RGBA)} {w h : Nat} (hd : dims surf w h)
    (x y : Int) (col : RGBA) : dims (draw_pixel surf x y col) w h := by
  rw [draw_pixel]
  split
  · by_cases hlen : surf.length ≤ y.toNat
    · rw [List.set_eq_of_length_le hlen]
      exact hd
    · push_neg at hlen
      obtain ⟨row, hrow⟩ : ∃ row, surf[y.toNat]? = some row :=
        ⟨surf[y.toNat], List.getElem?_eq_getElem hlen⟩
      refine ⟨by simp [hd.1], ?_⟩
      intro r hr
      rcases List.mem_or_eq_of_mem_set hr with hmem | heq
      · exact hd.2 r hmem
      · subst heq
        rw [List.length_set, hrow, Option.getD_some]
        exact hd.2 row (List.getElem?_mem hrow)
  · exact hd

theorem dims_draw_hline_n {w h : Nat} (x1 y : Int) (col : RGBA) (n : Nat) :
    ∀ (surf : List (List RGBA)), dims surf w h →
      dims (draw_hline_n x1 y col n surf) w h := by
  induction n with
  | zero => intro surf hd; exact hd
  | succ n ih =>
    intro surf hd
    exact dims_draw_pixel (ih surf hd) _ _ _

theorem dims_bres_line {w h : Nat} (fuel : Nat) :
    ∀ (surf : List (List RGBA)) (x1 y1 x2 y2 dx dy sx sy err : Int) (col : RGBA),
      dims surf w h → dims (bres_line fuel surf x1 y1 x2 y2 dx dy sx sy err col) w h := by
  induction fuel with
  | zero => intro surf _ _ _ _ _ _ _ _ _ _ hd; exact hd
  | succ n ih =>
    intro surf x1 y1 x2 y2 dx dy sx sy err col hd
    rw [bres_line]
    split
    · exact dims_draw_pixel hd _ _ _
    · exact ih _ _ _ _ _ _ _ _ _ _ _ (dims_draw_pixel hd _ _ _)

theorem dims_render_command {surf : List (List RGBA)} {w h : Nat}
    (hd : dims surf w h) (col : RGBA) (c : CmdText) :
    dims (render_command col c surf) w h := by
  cases c with
  | P px py => exact dims_draw_pixel hd _ _ _
  | PL x1 y1 x2 y2 =>
    rw [render_command, draw_line]
    split
    · exact dims_draw_hline_n _ _ _ _ _ hd
    · exact dims_bres_line _ _ _ _ _ _ _ _ _ _ _ _ hd

theorem dims_renderPairs {w h : Nat} (ps : List (RGBA × Command)) :
    ∀ (surf : List (List RGBA)), dims surf w h → dims (renderPairs ps surf) w h := by
  induction ps with
  | nil => intro surf hd; exact hd
  | cons p t ih =>
    intro surf hd
    exact ih _ (dims_render_command hd _ _)

/-- Effect of one bounds-checked pixel write on one in-range cell. -/
theorem getPx_draw_pixel {surf : List (List RGBA)} {w h : Nat} (hd : dims surf w h)
    {x y : Nat} (hx : x < w) (hy : y < h) (xi yi : Int) (col : RGBA) :
    getPx (draw_pixel surf xi yi col) x y =
      if xi = (x : Int) ∧ yi = (y : Int) then some col else getPx surf x y := by
  have hylen : y < surf.length := by rw [hd.1]; exact hy
  obtain ⟨row, hrow⟩ : ∃ row, surf[y]? = some row :=
    ⟨surf[y], List.getElem?_eq_getElem hylen⟩
  have hrw : row.length = w := hd.2 row (List.getElem?_mem hrow)
  by_cases hit : xi = (x : Int) ∧ yi = (y : Int)
  · obtain ⟨hxi, hyi⟩ := hit
    have hty : yi.toNat = y := by omega
    have htx : xi.toNat = x := by omega
    rw [if_pos ⟨hxi, hyi⟩, draw_pixel, if_pos ⟨by omega, by omega⟩, getPx, hty, htx,
      List.getElem?_set_self hylen, Option.getD_some, hrow, Option.getD_some]
    exact List.getElem?_set_self (by rw [hrw]; exact hx)
  · rw [if_neg hit, draw_pixel]
    split
    · rename_i hnn
      by_cases hyy : yi.toNat = y
      · have hxx : xi.toNat ≠ x := by omega
        rw [getPx, hyy, List.getElem?_set_self hylen, Option.getD_some, hrow,
          Option.getD_some, List.getElem?_set_ne hxx, getPx, hrow, Option.getD_some]
      · rw [getPx, List.getElem?_set_ne hyy]
        rfl
    · rfl

/-- Effect of the unrolled horizontal fill on one in-range cell. -/
theorem getPx_draw_hline_n {w h : Nat} (x1 yi : Int) (col : RGBA) (n : Nat) :
    ∀ (surf : List (List RGBA)), dims surf w h → ∀ {x y : Nat}, x < w → y < h →
    getPx (draw_hline_n x1 yi col n surf) x y =
      if yi = (y : Int) ∧ x1 ≤ (x : Int) ∧ (x : Int) < x1 + n then some col
      else getPx surf x y := by
  induction n with
  | zero =>
    intro surf hd x y hx hy
    rw [draw_hline_n, if_neg]
    intro hcon
    omega
  | succ n ih =>
    intro surf hd x y hx hy
    rw [draw_hline_n,
      getPx_draw_pixel (dims_draw_hline_n _ _ _ _ _ hd) hx hy,
      ih surf hd hx hy]
    split_ifs <;> first | rfl | omega

/-- Effect of the player horizontal line fill on one in-range cell. -/
theorem getPx_draw_hline {surf : List (List RGBA)} {w h : Nat} (hd : dims surf w h)
    {x y : Nat} (hx : x < w) (hy : y < h) (x1 x2 yi : Int) (col : RGBA) :
    getPx (draw_hline surf x1 x2 yi col) x y =
      if yi = (y : Int) ∧ x1 ≤ (x : Int) ∧ (x : Int) ≤ x2 then some col
      else getPx surf x y := by
  rw [draw_hline, getPx_draw_hline_n x1 yi col _ surf hd hx hy]
  split_ifs <;> first | rfl | omega

/-- Effect of replaying one well-formed command on one in-range cell: the
cell is overwritten exactly when the command covers it. -/
theorem getPx_render_command {surf : List (List RGBA)} {w h : Nat}
    (hd : dims surf w h) {x y : Nat} (hx : x < w) (hy : y < h)
    (col : RGBA) (c : Command) (hwf : wfCmd c) :
    getPx (render_command col c.cmd surf) x y =
      if covers c x y then some col else getPx surf x y := by
  rcases hwf with ⟨hxe, htxt⟩ | ⟨hxe, htxt⟩
  · rw [htxt]
    show getPx (draw_pixel surf _ _ col) x y = _
    rw [getPx_draw_pixel hd hx hy]
    simp only [covers, Bool.and_eq_true, decide_eq_true_eq]
    split_ifs <;> first | rfl | omega
  · rw [htxt]
    show getPx (draw_line surf _ _ _ _ col) x y = _
    rw [draw_line, if_pos rfl, getPx_draw_hline hd hx hy]
    simp only [covers, Bool.and_eq_true, decide_eq_true_eq]
    split_ifs <;> first | rfl | omega

/-- Color of the last command of the list covering cell `(x, y)`, if any. -/
def coverColor (x y : Nat) : List (RGBA × Command) → Option RGBA
  | [] => none
  | p :: t =>
    match coverColor x y t with
    | some col => some col
    | none => if covers p.2 x y then some p.1 else none

theorem coverColor_cons (x y : Nat) (p : RGBA × Command) (t : List (RGBA × Command)) :
    coverColor x y (p :: t) =
      (coverColor x y t).elim (if covers p.2 x y then some p.1 else none) some := by
  cases hc : coverColor x y t <;> simp [coverColor, hc]

theorem coverColor_eq_none {x y : Nat} {ps : List (RGBA × Command)} :
    coverColor x y ps = none ↔ ∀ p ∈ ps, ¬ covers p.2 x y = true := by
  induction ps with
  | nil => simp [coverColor]
  | cons p t ih =>
    rw [coverColor_cons]
    cases hc : coverColor x y t with
    | some col =>
      simp only [Option.elim_some]
      constructor
      · intro hcon
        exact absurd hcon (by simp)
      · intro hall
        have hnone : coverColor x y t = none :=
          ih.mpr (fun q hq => hall q (List.mem_cons_of_mem _ hq))
        rw [hnone] at hc
        exact absurd hc (by simp)
    | none =>
      simp only [Option.elim_none]
      rw [ih] at hc
      constructor
      · intro hnone q hq
        rcases List.mem_cons.mp hq with rfl | hqt
        · intro hcov
          rw [if_pos hcov] at hnone
          exact absurd hnone (by simp)
        · exact hc q hqt
      · intro hall
        rw [if_neg (hall p (List.mem_cons_self _ _))]

theorem coverColor_mem {x y : Nat} {ps : List (RGBA × Command)} :
    ∀ {col : RGBA}, coverColor x y ps = some col →
      ∃ p ∈ ps, covers p.2 x y = true ∧ p.1 = col := by
  induction ps with
  | nil => intro col hcon; exact absurd hcon (by simp [coverColor])
  | cons p t ih =>
    intro col hsome
    rw [coverColor_cons] at hsome
    cases hc : coverColor x y t with
    | some c2 =>
      rw [hc, Option.elim_some] at hsome
      obtain ⟨q, hq, hcov, hcol⟩ := ih hc
      obtain rfl : c2 = col := by simpa using hsome
      exact ⟨q, List.mem_cons_of_mem _ hq, hcov, hcol⟩
    | none =>
      rw [hc, Option.elim_none] at hsome
      by_cases hcov : covers p.2 x y = true
      · rw [if_pos hcov] at hsome
        exact ⟨p, List.mem_cons_self _ _, hcov, by simpa using hsome⟩
      · rw [if_neg hcov] at hsome
        exact absurd hsome (by simp)

/-- When exactly one command covers the cell and every covering command
carries color `col`, the replayed color is `col`. -/
theorem coverColor_unique {x y : Nat} {ps : List (RGBA × Command)} {col : RGBA}
    (hcount : ps.countP (fun p => covers p.2 x y) = 1)
    (hcol : ∀ p ∈ ps, covers p.2 x y = true → p.1 = col) :
    coverColor x y ps = some col := by
  cases hc : coverColor x y ps with
  | some c =>
    obtain ⟨p, hp, hcov, hpc⟩ := coverColor_mem hc
    rw [← hpc, hcol p hp hcov]
  | none =>
    have h0 : ps.countP (fun p => covers p.2 x y) = 0 :=
      List.countP_eq_zero.mpr (coverColor_eq_none.mp hc)
    omega

/-- Pointwise value of replaying a list of well-formed commands: the color of
the last covering command, or the original cell value. -/
theorem getPx_renderPairs {w h : Nat} (ps : List (RGBA × Command))
    (hwf : ∀ p ∈ ps, wfCmd p.2) :
    ∀ (surf : List (List RGBA)), dims surf w h → ∀ {x y : Nat}, x < w → y < h →
    getPx (renderPairs ps surf) x y =
      (coverColor x y ps).elim (getPx surf x y) some := by
  induction ps with
  | nil => intro surf hd x y hx hy; rfl
  | cons p t ih =>
    intro surf hd x y hx hy
    rw [renderPairs,
      ih (fun q hq => hwf q (List.mem_cons_of_mem _ hq)) _
        (dims_render_command hd _ _) hx hy,
      coverColor_cons]
    cases hc : coverColor x y t with
    | some c2 => simp [hc]
    | none =>
      simp only [hc, Option.elim_none]
      rw [getPx_render_command hd hx hy p.1 p.2 (hwf p (List.mem_cons_self _ _))]
      by_cases hcov : covers p.2 x y = true
      · simp [hcov]
      · simp [hcov]

/-- General pointwise round-trip: replaying the spatial encoding of a
`w`-by-`h` frame onto any surface of the same dimensions reproduces the
frame. -/
theorem render_encode_general (frame surf : List (List RGBA)) (w h : Nat)
    (hfh : frame.length = h) (hfw : ∀ row ∈ frame, row.length = w)
    (hs : dims surf w h) :
    render_frame (encodeFrame frame) surf = frame := by
  rw [render_frame_eq_renderPairs]
  have hperm := framePairs_encodeFrame frame
  have hwf : ∀ p ∈ framePairs (encodeFrame frame), wfCmd p.2 := fun p hp =>
    (process_frame_rows_mem frame 0 p (hperm.mem_iff.mp hp)).1
  have hres : dims (renderPairs (framePairs (encodeFrame frame)) surf) w h :=
    dims_renderPairs _ surf hs
  apply List.ext_getElem?
  intro yy
  by_cases hyy : yy < h
  · have h1 : yy < (renderPairs (framePairs (encodeFrame frame)) surf).length := by
      rw [hres.1]; exact hyy
    have h2 : yy < frame.length := by rw [hfh]; exact hyy
    rw [List.getElem?_eq_getElem h1, List.getElem?_eq_getElem h2]
    have hrlen : (renderPairs (framePairs (encodeFrame frame)) surf)[yy].length = w :=
      hres.2 _ (List.getElem_mem h1)
    have hflen : frame[yy].length = w := hfw _ (List.getElem_mem h2)
    congr 1
    apply List.ext_getElem?
    intro xx
    by_cases hxx : xx < w
    · have hgl : (renderPairs (framePairs (encodeFrame frame)) surf)[yy][xx]? =
          getPx (renderPairs (framePairs (encodeFrame frame)) surf) xx yy := by
        rw [getPx, List.getElem?_eq_getElem h1, Option.getD_some]
      have hgr : frame[yy][xx]? = getPx frame xx yy := by
        rw [getPx, List.getElem?_eq_getElem h2, Option.getD_some]
      obtain ⟨col, hcol⟩ : ∃ col, getPx frame xx yy = some col := by
        rw [getPx, List.getElem?_eq_getElem h2, Option.getD_some]
        exact ⟨frame[yy][xx], List.getElem?_eq_getElem (by rw [hflen]; exact hxx)⟩
      rw [hgl, hgr, hcol, getPx_renderPairs _ hwf surf hs hxx hyy]
      have hcc : coverColor xx yy (framePairs (encodeFrame frame)) = some col := by
        apply coverColor_unique
        · rw [List.Perm.countP_eq _ hperm,
            process_frame_rows_countP frame 0 w hfw xx yy]
          rw [if_pos ⟨Nat.zero_le _, by omega, hxx⟩]
        · intro p hp hcov
          obtain ⟨hwfp, hy0, hylt, hxle, row, hrow, hexlt, hcolall⟩ :=
            process_frame_rows_mem frame 0 p (hperm.mem_iff.mp hp)
          have hcov2 : p.2.y = yy ∧ p.2.x ≤ xx ∧ xx ≤ p.2.endX := by
            have := hcov
            simp only [covers, Bool.and_eq_true, decide_eq_true_eq] at this
            exact ⟨this.1.1, this.1.2, this.2⟩
          have hyidx : p.2.y - 0 = yy := by omega
          rw [hyidx] at hrow
          have hv := hcolall xx hcov2.2.1 hcov2.2.2
          have : getPx frame xx yy = some p.1 := by
            rw [getPx, hrow, Option.getD_some]
            exact hv
          rw [hcol] at this
          exact (Option.some.injEq _ _ ▸ this).symm
      rw [hcc, Option.elim_some]
    · rw [List.getElem?_eq_none (by rw [hrlen]; omega),
        List.getElem?_eq_none (by rw [hflen]; omega)]
  · rw [List.getElem?_eq_none (by rw [hres.1]; omega),
      List.getElem?_eq_none (by rw [hfh]; omega)]

/-- Blank surface: the player clears the screen to black
(`SDL_FillRect(..., SDL_MapRGB(format, 0, 0, 0))`) before replaying a
frame. -/
def blankSurface (w h : Nat) : List (List RGBA) :=
  List.replicate h (List.replicate w ⟨0, 0, 0, 255⟩)

theorem dims_blankSurface (w h : Nat) : dims (blankSurface w h) w h := by
  refine ⟨by simp [blankSurface], ?_⟩
  intro row hrow
  rw [blankSurface] at hrow
  rw [List.eq_of_mem_replicate hrow]
  simp

/-- Claim C1: for every `w`-by-`h` RGBA frame, running the spatial run-length
encoder over all rows and replaying the resulting P/PL commands (all colors,
all commands) onto a blank `w`-by-`h` surface reproduces the frame exactly,
pixel for pixel. -/
theorem spatial_encode_replay_roundtrip (frame : List (List RGBA)) (w h : Nat)
    (hfh : frame.length = h) (hfw : ∀ row ∈ frame, row.length = w) :
    render_frame (encodeFrame frame) (blankSurface w h) = frame :=
  render_encode_general frame _ w h hfh hfw (dims_blankSurface w h)

/-- Witness for C1: the uniform 2×1 red frame (the spec scenario) encodes and
replays back to itself on a blank 2×1 surface. -/
theorem spatial_encode_replay_roundtrip_witness :
    render_frame (encodeFrame [[⟨255, 0, 0, 255⟩, ⟨255, 0, 0, 255⟩]])
      (blankSurface 2 1) = [[⟨255, 0, 0, 255⟩, ⟨255, 0, 0, 255⟩]] :=
  spatial_encode_replay_roundtrip _ 2 1 rfl (by decide)

/-- Witness for C3 on a concrete 3×2 frame: column 1 of row 0 is covered
exactly once, column 3 (out of range) is covered by no command. -/
theorem spatial_row_partition_witness :
    ((framePairs (encodeFrame [[⟨255, 0, 0, 255⟩, ⟨255, 0, 0, 255⟩, ⟨0, 0, 255, 255⟩],
        [⟨0, 0, 255, 255⟩, ⟨0, 0, 255, 255⟩, ⟨0, 0, 255, 255⟩]])).countP
      (fun p => covers p.2 1 0) = if (1 : Nat) < 3 then 1 else 0) ∧
    ((framePairs (encodeFrame [[⟨255, 0, 0, 255⟩, ⟨255, 0, 0, 255⟩, ⟨0, 0, 255, 255⟩],
        [⟨0, 0, 255, 255⟩, ⟨0, 0, 255, 255⟩, ⟨0, 0, 255, 255⟩]])).countP
      (fun p => covers p.2 3 0) = if (3 : Nat) < 3 then 1 else 0) := by
  constructor
  · exact spatial_row_partition
      [[⟨255, 0, 0, 255⟩, ⟨255, 0, 0, 255⟩, ⟨0, 0, 255, 255⟩],
       [⟨0, 0, 255, 255⟩, ⟨0, 0, 255, 255⟩, ⟨0, 0, 255, 255⟩]] 3 2 rfl (by decide) 0
      (by decide) 1
  · exact spatial_row_partition
      [[⟨255, 0, 0, 255⟩, ⟨255, 0, 0, 255⟩, ⟨0, 0, 255, 255⟩],
       [⟨0, 0, 255, 255⟩, ⟨0, 0, 255, 255⟩, ⟨0, 0, 255, 255⟩]] 3 2 rfl (by decide) 0
      (by decide) 3

/-- Command signature used by the temporal merger: `(x_start, x_end, y)`,
the fields compared by the extension loop of `build_hmic_data`. -/
def Command.sig (c : Command) : Nat × Nat × Nat := (c.x, c.endX, c.y)

/-- One frame's command map as the temporal pass sees it. -/
abbrev FrameMap := List (RGBA × List Command)

/-- Bucket of one color in a frame map
(`frame_commands[idx][color]` behind the `count(color)` guard); an absent
color yields the empty bucket. -/
def lookupColor (col : RGBA) : FrameMap → List Command
  | [] => []
  | (k, l) :: t => if k = col then l else lookupColor col t

/-- A temporal block of `build_hmic_data`: 1-based frame numbers
(`consecutive_frames`), the color, and the shared command. -/
structure TBlock where
  frames : List Nat
  color : RGBA
  cmd : Command
deriving DecidableEq

/-- The merge pass state: per-frame `merged_commands` sets (lists with set
membership semantics) and the emitted blocks. -/
structure MergeState where
  merged : List (List Command)
  blocks : List TBlock
deriving DecidableEq

/-- The inner scan of the extension loop: the first command of the bucket
with the probed signature that is not yet consumed; a consumed match does not
stop the scan. -/
def findUnconsumed (c : Command) (bucket : List Command)
    (mergedF : List Command) : Option Command :=
  bucket.find? (fun d => decide (d.sig = c.sig ∧ ¬ d ∈ mergedF))

/-- The forward-extension loop of `build_hmic_data`: probe frames
`next, next+1, ...` (`fuel` of them) for an unconsumed command with the
probed signature; on a match append the 1-based frame number, mark the match
consumed, and continue; stop at the first mismatch. -/
def extendAux (framesL : List FrameMap) (col : RGBA) (c : Command) :
    Nat → Nat → List (List Command) → List Nat × List (List Command)
  | _, 0, merged => ([], merged)
  | next, fuel + 1, merged =>
    match findUnconsumed c (lookupColor col (framesL.getD next []))
        (merged.getD next []) with
    | some m =>
      let merged2 := merged.set next (m :: merged.getD next [])
      let r := extendAux framesL col c (next + 1) fuel merged2
      ((next + 1) :: r.1, r.2)
    | none => ([], merged)

/-- Processing of one command of 0-based frame `f` in `build_hmic_data`:
skip if already consumed; otherwise extend forward from `f+1`; a multi-frame
run becomes a block (1-based frame numbers, the current frame first) and the
command becomes consumed in every covered frame; a run that never extends
leaves the state unchanged. -/
def processCmd (framesL : List FrameMap) (n f : Nat) (col : RGBA) (c : Command)
    (st : MergeState) : MergeState :=
  if c ∈ st.merged.getD f [] then st
  else if (extendAux framesL col c (f + 1) (n - (f + 1)) st.merged).1.isEmpty then st
  else
    { merged := (extendAux framesL col c (f + 1) (n - (f + 1)) st.merged).2.set f
        (c :: (extendAux framesL col c (f + 1) (n - (f + 1)) st.merged).2.getD f []),
      blocks := st.blocks ++
        [⟨(f + 1) :: (extendAux framesL col c (f + 1) (n - (f + 1)) st.merged).1,
          col, c⟩] }

def processEntry (framesL : List FrameMap) (n f : Nat) (st : MergeState)
    (e : RGBA × List Command) : MergeState :=
  e.2.foldl (fun s c => processCmd framesL n f e.1 c s) st

def processFrame (framesL : List FrameMap) (n f : Nat) (st : MergeState) :
    MergeState :=
  (framesL.getD f []).foldl (processEntry framesL n f) st

/-- The temporal pass of `build_hmic_data`: frames `0 .. n-2` in order,
starting from empty consumed sets and no blocks. -/
def build_hmic_temporal (framesL : List FrameMap) : MergeState :=
  (List.range (framesL.length - 1)).foldl
    (fun st f => processFrame framesL framesL.length f st)
    ⟨List.replicate framesL.length [], []⟩

/-- The residual commands of 0-based frame `f`: every pair of the frame not
consumed by a block (the residual emission loop of `build_hmic_data`). -/
def residualPairs (framesL : List FrameMap) (st : MergeState) (f : Nat) :
    List (RGBA × Command) :=
  (framePairs (framesL.getD f [])).filter
    (fun p => decide (¬ p.2 ∈ st.merged.getD f []))

/-- The pairs contributed to 1-based frame `fn` by the blocks whose frame
list contains `fn`. -/
def claimedPairs (blocks : List TBlock) (fn : Nat) : List (RGBA × Command) :=
  (blocks.filter (fun b => decide (fn ∈ b.frames))).map (fun b => (b.color, b.cmd))

/-- Within one frame, all commands over all colors have distinct signatures
(the spatial encoder guarantees this: spans of one frame are disjoint). -/
def SigUnique (framesL : List FrameMap) : Prop :=
  ∀ f, f < framesL.length →
    (framePairs (framesL.getD f [])).Pairwise (fun p q => p.2.sig ≠ q.2.sig)

/-- Across frames, the color and signature determine the command (the spatial
encoder derives the text deterministically from the signature). -/
def SigDetermines (framesL : List FrameMap) : Prop :=
  ∀ f, f < framesL.length → ∀ g, g < framesL.length →
    ∀ p ∈ framePairs (framesL.getD f []), ∀ q ∈ framePairs (framesL.getD g []),
      p.1 = q.1 → p.2.sig = q.2.sig → p.2 = q.2

theorem getD_set_ne {α : Type} (l : List α) {i j : Nat} (v d : α) (h : i ≠ j) :
    (l.set i v).getD j d = l.getD j d := by
  rw [List.getD_eq_getElem?_getD, List.getD_eq_getElem?_getD, List.getElem?_set_ne h]

theorem getD_set_self {α : Type} (l : List α) {i : Nat} (v d : α) (h : i < l.length) :
    (l.set i v).getD i d = v := by
  rw [List.getD_eq_getElem?_getD, List.getElem?_set_self h, Option.getD_some]

theorem lookupColor_subset (col : RGBA) (fm : FrameMap) :
    ∀ d ∈ lookupColor col fm, (col, d) ∈ framePairs fm := by
  induction fm with
  | nil => simp [lookupColor]
  | cons e t ih =>
    obtain ⟨k, l⟩ := e
    intro d hd
    rw [lookupColor] at hd
    rw [framePairs, List.flatMap_cons, List.mem_append]
    by_cases hk : k = col
    · rw [if_pos hk] at hd
      subst hk
      exact Or.inl (List.mem_map.mpr ⟨d, hd, rfl⟩)
    · rw [if_neg hk] at hd
      exact Or.inr (ih d hd)

theorem findUnconsumed_some {c m : Command} {bucket mergedF : List Command}
    (h : findUnconsumed c bucket mergedF = some m) :
    m ∈ bucket ∧ m.sig = c.sig ∧ ¬ m ∈ mergedF := by
  refine ⟨List.mem_of_find?_eq_some h, ?_⟩
  have := List.find?_some h
  simpa using this

theorem extendAux_none {framesL : List FrameMap} {col : RGBA} {c : Command}
    {next fuel : Nat} {merged : List (List Command)}
    (h : findUnconsumed c (lookupColor col (framesL.getD next []))
        (merged.getD next []) = none) :
    extendAux framesL col c next (fuel + 1) merged = ([], merged) := by
  rw [extendAux, h]

theorem extendAux_some {framesL : List FrameMap} {col : RGBA} {c : Command}
    {next fuel : Nat} {merged : List (List Command)} {m : Command}
    (h : findUnconsumed c (lookupColor col (framesL.getD next []))
        (merged.getD next []) = some m) :
    extendAux framesL col c next (fuel + 1) merged =
      ((next + 1) ::
        (extendAux framesL col c (next + 1) fuel
          (merged.set next (m :: merged.getD next []))).1,
       (extendAux framesL col c (next + 1) fuel
          (merged.set next (m :: merged.getD next []))).2) := by
  rw [extendAux, h]

/-- Characterisation of the extension loop: it returns the contiguous
1-based numbers `next+1 .. next+k` where `k` is the maximal streak of
matching frames starting at `next`; the consumed sets gain the matched
command exactly at the matched indices; the loop stops at the first
mismatch and probes nothing beyond it. -/
theorem extendAux_spec (framesL : List FrameMap) (col : RGBA) (c : Command) :
    ∀ (fuel next : Nat) (merged : List (List Command)),
      next + fuel ≤ merged.length →
      ∃ k, k ≤ fuel ∧
        (extendAux framesL col c next fuel merged).1 = List.range' (next + 1) k ∧
        (extendAux framesL col c next fuel merged).2.length = merged.length ∧
        (∀ j, j < next ∨ next + k ≤ j →
          (extendAux framesL col c next fuel merged).2.getD j [] =
            merged.getD j []) ∧
        (∀ i, i < k → ∃ m,
          findUnconsumed c (lookupColor col (framesL.getD (next + i) []))
            (merged.getD (next + i) []) = some m ∧
          (extendAux framesL col c next fuel merged).2.getD (next + i) [] =
            m :: merged.getD (next + i) []) ∧
        (k < fuel →
          findUnconsumed c (lookupColor col (framesL.getD (next + k) []))
            (merged.getD (next + k) []) = none) := by
  intro fuel
  induction fuel with
  | zero =>
    intro next merged hlen
    refine ⟨0, Nat.le_refl _, rfl, rfl, fun j hj => rfl,
      fun i hi => absurd hi (by omega), fun hcon => absurd hcon (by omega)⟩
  | succ fuel ih =>
    intro next merged hlen
    cases hfind : findUnconsumed c (lookupColor col (framesL.getD next []))
        (merged.getD next []) with
    | none =>
      rw [extendAux_none hfind]
      refine ⟨0, by omega, by simp, rfl, fun j hj => rfl,
        fun i hi => absurd hi (by omega), fun _ => by simpa using hfind⟩
    | some m =>
      have hlen2 : (next + 1) + fuel ≤
          (merged.set next (m :: merged.getD next [])).length := by
        rw [List.length_set]; omega
      obtain ⟨k, hk, h1, h2, h3, h4, h5⟩ := ih (next + 1) _ hlen2
      rw [extendAux_some hfind]
      refine ⟨k + 1, by omega, ?_, ?_, ?_, ?_, ?_⟩
      · show (next + 1) :: _ = _
        rw [h1, List.range'_succ]
      · show _ = merged.length
        rw [h2, List.length_set]
      · intro j hj
        show (extendAux framesL col c (next + 1) fuel _).2.getD j [] = _
        rw [h3 j (by omega), getD_set_ne _ _ _ (by omega)]
      · intro i hi
        cases i with
        | zero =>
          refine ⟨m, by simpa using hfind, ?_⟩
          show (extendAux framesL col c (next + 1) fuel
            (merged.set next (m :: merged.getD next []))).2.getD next [] =
            m :: merged.getD next []
          rw [h3 next (Or.inl (by omega))]
          exact getD_set_self _ _ _ (by omega)
        | succ j =>
          obtain ⟨m2, hfind2, hupd⟩ := h4 j (by omega)
          have hidx : next + (j + 1) = (next + 1) + j := by omega
          rw [getD_set_ne _ _ _ (by omega : next ≠ (next + 1) + j)] at hfind2 hupd
          refine ⟨m2, ?_, ?_⟩
          · rw [hidx]
            exact hfind2
          · show (extendAux framesL col c (next + 1) fuel _).2.getD (next + (j + 1)) [] = _
            rw [hidx]
            exact hupd
      · intro hlt
        have h6 := h5 (by omega)
        rw [getD_set_ne _ _ _ (by omega : next ≠ (next + 1) + k)] at h6
        have hidx : next + (k + 1) = (next + 1) + k := by omega
        rw [hidx]
        exact h6

/-- Claim C6: the forward extension of a command of 0-based frame `f`
returns exactly the maximal contiguous run of frames `f+1, f+2, ...`
(recorded with the 1-based numbers `f+2, f+3, ...`, as the loop pushes
`next_frame_idx + 1`) in which the same `(x_start, x_end, y)` signature is
present in the command's color bucket and not yet consumed; it stops at the
first frame that fails to match, and no frame past the first mismatch is
ever added to the frame list, even if it contains the signature. -/
theorem temporal_forward_extension (framesL : List FrameMap) (col : RGBA)
    (c : Command) (f : Nat) (merged : List (List Command))
    (hlen : merged.length = framesL.length) (hf : f < framesL.length) :
    ∃ k, f + 1 + k ≤ framesL.length ∧
      (extendAux framesL col c (f + 1) (framesL.length - (f + 1)) merged).1 =
        List.range' (f + 2) k ∧
      (∀ i, i < k →
        ∃ d ∈ lookupColor col (framesL.getD (f + 1 + i) []),
          d.sig = c.sig ∧ ¬ d ∈ merged.getD (f + 1 + i) []) ∧
      (f + 1 + k < framesL.length →
        ¬ ∃ d ∈ lookupColor col (framesL.getD (f + 1 + k) []),
          d.sig = c.sig ∧ ¬ d ∈ merged.getD (f + 1 + k) []) := by
  have hfl : (f + 1) + (framesL.length - (f + 1)) ≤ merged.length := by omega
  obtain ⟨k, hk, h1, h2, h3, h4, h5⟩ :=
    extendAux_spec framesL col c (framesL.length - (f + 1)) (f + 1) merged hfl
  refine ⟨k, by omega, by simpa using h1, ?_, ?_⟩
  · intro i hi
    obtain ⟨m, hfind, _⟩ := h4 i hi
    obtain ⟨hmem, hsig2, hnc⟩ := findUnconsumed_some hfind
    exact ⟨m, hmem, hsig2, hnc⟩
  · intro hklt hcon
    obtain ⟨d, hd, hsig2, hnc⟩ := hcon
    have h6 := h5 (by omega)
    rw [findUnconsumed, List.find?_eq_none] at h6
    have h7 := h6 d hd
    simp only [decide_eq_true_eq] at h7
    exact h7 ⟨hsig2, hnc⟩

/-- Witness for C6 on two identical one-command frames: from frame 0 the
extension claims exactly frame 1 (1-based number 2). -/
theorem temporal_forward_extension_witness :
    ∃ k, 0 + 1 + k ≤
        ([[(⟨255, 0, 0, 255⟩, [⟨.PL 1 1 2 1, 0, 1, 0⟩])],
          [(⟨255, 0, 0, 255⟩, [⟨.PL 1 1 2 1, 0, 1, 0⟩])]] : List FrameMap).length ∧
      (extendAux [[(⟨255, 0, 0, 255⟩, [⟨.PL 1 1 2 1, 0, 1, 0⟩])],
          [(⟨255, 0, 0, 255⟩, [⟨.PL 1 1 2 1, 0, 1, 0⟩])]] ⟨255, 0, 0, 255⟩
          ⟨.PL 1 1 2 1, 0, 1, 0⟩ (0 + 1)
          (([[(⟨255, 0, 0, 255⟩, [⟨.PL 1 1 2 1, 0, 1, 0⟩])],
            [(⟨255, 0, 0, 255⟩, [⟨.PL 1 1 2 1, 0, 1, 0⟩])]] : List FrameMap).length -
            (0 + 1)) [[], []]).1 = List.range' (0 + 2) k ∧
      (∀ i, i < k →
        ∃ d ∈ lookupColor ⟨255, 0, 0, 255⟩
            (([[(⟨255, 0, 0, 255⟩, [⟨.PL 1 1 2 1, 0, 1, 0⟩])],
              [(⟨255, 0, 0, 255⟩, [⟨.PL 1 1 2 1, 0, 1, 0⟩])]] : List FrameMap).getD
              (0 + 1 + i) []),
          d.sig = Command.sig ⟨.PL 1 1 2 1, 0, 1, 0⟩ ∧
            ¬ d ∈ ([[], []] : List (List Command)).getD (0 + 1 + i) []) ∧
      (0 + 1 + k <
          ([[(⟨255, 0, 0, 255⟩, [⟨.PL 1 1 2 1, 0, 1, 0⟩])],
            [(⟨255, 0, 0, 255⟩, [⟨.PL 1 1 2 1, 0, 1, 0⟩])]] : List FrameMap).length →
        ¬ ∃ d ∈ lookupColor ⟨255, 0, 0, 255⟩
            (([[(⟨255, 0, 0, 255⟩, [⟨.PL 1 1 2 1, 0, 1, 0⟩])],
              [(⟨255, 0, 0, 255⟩, [⟨.PL 1 1 2 1, 0, 1, 0⟩])]] : List FrameMap).getD
              (0 + 1 + k) []),
          d.sig = Command.sig ⟨.PL 1 1 2 1, 0, 1, 0⟩ ∧
            ¬ d ∈ ([[], []] : List (List Command)).getD (0 + 1 + k) []) :=
  temporal_forward_extension
    [[(⟨255, 0, 0, 255⟩, [⟨.PL 1 1 2 1, 0, 1, 0⟩])],
     [(⟨255, 0, 0, 255⟩, [⟨.PL 1 1 2 1, 0, 1, 0⟩])]] ⟨255, 0, 0, 255⟩
    ⟨.PL 1 1 2 1, 0, 1, 0⟩ 0 [[], []] rfl (by decide)

/-- Invariant of the temporal pass: the consumed sets are duplicate-free, the
block contributions to each frame are (as a multiset of commands) exactly
that frame's consumed set, and every block pair belongs to every frame its
range covers. -/
def MergeInv (framesL : List FrameMap) (st : MergeState) : Prop :=
  st.merged.length = framesL.length ∧
  (∀ f, (st.merged.getD f []).Nodup) ∧
  (∀ f, List.Perm ((claimedPairs st.blocks (f + 1)).map Prod.snd)
    (st.merged.getD f [])) ∧
  (∀ b ∈ st.blocks, ∀ f : Nat, (f + 1) ∈ b.frames →
    (b.color, b.cmd) ∈ framePairs (framesL.getD f []))

theorem claimedPairs_append (bs : List TBlock) (b : TBlock) (fn : Nat) :
    claimedPairs (bs ++ [b]) fn =
      claimedPairs bs fn ++
        (if fn ∈ b.frames then [(b.color, b.cmd)] else []) := by
  simp only [claimedPairs, List.filter_append, List.map_append]
  by_cases hb : fn ∈ b.frames <;> simp [hb]

theorem processCmd_inv (framesL : List FrameMap) (f : Nat) (col : RGBA)
    (c : Command) (st : MergeState) (hf : f < framesL.length)
    (hmem : (col, c) ∈ framePairs (framesL.getD f []))
    (hdet : SigDetermines framesL) (hinv : MergeInv framesL st) :
    MergeInv framesL (processCmd framesL framesL.length f col c st) := by
  obtain ⟨hW, hA, hC, hD⟩ := hinv
  rw [processCmd]
  split
  · exact ⟨hW, hA, hC, hD⟩
  rename_i hguard
  split
  · exact ⟨hW, hA, hC, hD⟩
  rename_i hne
  have hlen : (f + 1) + (framesL.length - (f + 1)) ≤ st.merged.length := by
    rw [hW]; omega
  obtain ⟨k, hk, h1, h2, h3, h4, h5⟩ :=
    extendAux_spec framesL col c (framesL.length - (f + 1)) (f + 1) st.merged hlen
  have hkpos : 0 < k := by
    rcases Nat.eq_zero_or_pos k with h0 | h
    · rw [h0] at h1
      rw [h1] at hne
      simp at hne
    · exact h
  have hmatch : ∀ i, i < k →
      (extendAux framesL col c (f + 1) (framesL.length - (f + 1))
          st.merged).2.getD (f + 1 + i) [] =
        c :: st.merged.getD (f + 1 + i) [] ∧
      (col, c) ∈ framePairs (framesL.getD (f + 1 + i) []) ∧
      ¬ c ∈ st.merged.getD (f + 1 + i) [] := by
    intro i hi
    obtain ⟨m, hfind, hupd⟩ := h4 i hi
    obtain ⟨hmB, hmsig, hmnc⟩ := findUnconsumed_some hfind
    have hik : f + 1 + i < framesL.length := by omega
    have hmp : (col, m) ∈ framePairs (framesL.getD (f + 1 + i) []) :=
      lookupColor_subset col _ m hmB
    have hmc : m = c :=
      hdet (f + 1 + i) hik f hf (col, m) hmp (col, c) hmem rfl hmsig
    rw [hmc] at hupd hmp hmnc
    exact ⟨hupd, hmp, hmnc⟩
  have hMf : ((extendAux framesL col c (f + 1) (framesL.length - (f + 1))
        st.merged).2.set f
        (c :: (extendAux framesL col c (f + 1) (framesL.length - (f + 1))
          st.merged).2.getD f [])).getD f [] =
      c :: st.merged.getD f [] := by
    rw [getD_set_self _ _ _ (by rw [h2, hW]; exact hf), h3 f (Or.inl (by omega))]
  have hMmid : ∀ i, i < k →
      ((extendAux framesL col c (f + 1) (framesL.length - (f + 1))
          st.merged).2.set f
          (c :: (extendAux framesL col c (f + 1) (framesL.length - (f + 1))
            st.merged).2.getD f [])).getD (f + 1 + i) [] =
        c :: st.merged.getD (f + 1 + i) [] := by
    intro i hi
    rw [getD_set_ne _ _ _ (by omega : f ≠ f + 1 + i)]
    exact (hmatch i hi).1
  have hMout : ∀ j, j ≠ f → (j < f + 1 ∨ f + 1 + k ≤ j) →
      ((extendAux framesL col c (f + 1) (framesL.length - (f + 1))
          st.merged).2.set f
          (c :: (extendAux framesL col c (f + 1) (framesL.length - (f + 1))
            st.merged).2.getD f [])).getD j [] =
        st.merged.getD j [] := by
    intro j hj hcase
    rw [getD_set_ne _ _ _ (Ne.symm hj)]
    exact h3 j hcase
  have hbm : ∀ g : Nat, ((g + 1) ∈ (f + 1) :: List.range' (f + 2) k) ↔
      (g = f ∨ (f + 1 ≤ g ∧ g < f + 1 + k)) := by
    intro g
    simp only [List.mem_cons, List.mem_range']
    constructor
    · rintro (h | ⟨i, hik, hgi⟩)
      · left; omega
      · right; omega
    · rintro (rfl | ⟨hg1, hg2⟩)
      · left; rfl
      · right
        exact ⟨g - (f + 1), by omega, by omega⟩
  refine ⟨?_, ?_, ?_, ?_⟩
  · show (List.set _ _ _).length = framesL.length
    rw [List.length_set, h2, hW]
  · intro g
    by_cases hgf : g = f
    · subst hgf
      show (List.getD (List.set _ _ _) g []).Nodup
      rw [hMf]
      exact List.Pairwise.cons (fun d hd heq => hguard (heq ▸ hd)) (hA g)
    · by_cases hmid : f + 1 ≤ g ∧ g < f + 1 + k
      · obtain ⟨i, rfl⟩ : ∃ i, g = f + 1 + i := ⟨g - (f + 1), by omega⟩
        show (List.getD (List.set _ _ _) (f + 1 + i) []).Nodup
        rw [hMmid i (by omega)]
        exact List.Pairwise.cons
          (fun d hd heq => (hmatch i (by omega)).2.2 (heq ▸ hd)) (hA _)
      · show (List.getD (List.set _ _ _) g []).Nodup
        rw [hMout g hgf (by omega)]
        exact hA g
  · intro g
    show List.Perm ((claimedPairs (st.blocks ++ [_]) (g + 1)).map Prod.snd) _
    rw [claimedPairs_append, List.map_append]
    by_cases hin : g = f ∨ (f + 1 ≤ g ∧ g < f + 1 + k)
    · rw [if_pos (by rw [h1]; exact (hbm g).mpr hin)]
      have htgt : (List.set
          (extendAux framesL col c (f + 1) (framesL.length - (f + 1)) st.merged).2 f
          (c :: (extendAux framesL col c (f + 1) (framesL.length - (f + 1))
            st.merged).2.getD f [])).getD g [] =
          c :: st.merged.getD g [] := by
        rcases hin with rfl | hmid2
        · exact hMf
        · obtain ⟨i, rfl⟩ : ∃ i, g = f + 1 + i := ⟨g - (f + 1), by omega⟩
          exact hMmid i (by omega)
      rw [htgt]
      simp only [List.map_cons, List.map_nil]
      refine List.Perm.trans (List.perm_append_singleton _ _) ?_
      exact List.Perm.cons _ (hC g)
    · rw [if_neg (by rw [h1]; exact fun hcon => hin ((hbm g).mp hcon))]
      have hgf : g ≠ f := fun hcon => hin (Or.inl hcon)
      have htgt := hMout g hgf (by omega)
      rw [htgt]
      simpa using hC g
  · intro b hb g hg
    rw [List.mem_append] at hb
    rcases hb with hb | hb
    · exact hD b hb g hg
    · have hbe : b = ⟨(f + 1) ::
          (extendAux framesL col c (f + 1) (framesL.length - (f + 1)) st.merged).1,
          col, c⟩ := by
        simpa using hb
      subst hbe
      rw [h1] at hg
      rcases (hbm g).mp hg with rfl | hmid2
      · exact hmem
      · obtain ⟨i, rfl⟩ : ∃ i, g = f + 1 + i := ⟨g - (f + 1), by omega⟩
        exact (hmatch i (by omega)).2.1

theorem foldl_processCmd_inv (framesL : List FrameMap) (f : Nat) (col : RGBA)
    (cmds : List Command) (st : MergeState) (hf : f < framesL.length)
    (hmem : ∀ c ∈ cmds, (col, c) ∈ framePairs (framesL.getD f []))
    (hdet : SigDetermines framesL) (hinv : MergeInv framesL st) :
    MergeInv framesL
      (cmds.foldl (fun s c => processCmd framesL framesL.length f col c s) st) := by
  induction cmds generalizing st with
  | nil => exact hinv
  | cons c t ih =>
    exact ih _ (fun d hd => hmem d (List.mem_cons_of_mem _ hd))
      (processCmd_inv framesL f col c st hf (hmem c (List.mem_cons_self _ _))
        hdet hinv)

theorem processFrame_inv (framesL : List FrameMap) (f : Nat) (st : MergeState)
    (hf : f < framesL.length) (hdet : SigDetermines framesL)
    (hinv : MergeInv framesL st) :
    MergeInv framesL (processFrame framesL framesL.length f st) := by
  rw [processFrame]
  have hent : ∀ e ∈ framesL.getD f [], ∀ c ∈ e.2,
      (e.1, c) ∈ framePairs (framesL.getD f []) := by
    intro e he c hc
    rw [framePairs, List.mem_flatMap]
    exact ⟨e, he, List.mem_map.mpr ⟨c, hc, rfl⟩⟩
  have main : ∀ (es : List (RGBA × List Command)) (st : MergeState),
      (∀ e ∈ es, e ∈ framesL.getD f []) → MergeInv framesL st →
      MergeInv framesL (es.foldl (processEntry framesL framesL.length f) st) := by
    intro es
    induction es with
    | nil => intro st _ hinv2; exact hinv2
    | cons e t ih =>
      intro st hes hinv2
      refine ih _ (fun q hq => hes q (List.mem_cons_of_mem _ hq)) ?_
      rw [processEntry]
      exact foldl_processCmd_inv framesL f e.1 e.2 st hf
        (fun c hc => hent e (hes e (List.mem_cons_self _ _)) c hc) hdet hinv2
  exact main _ st (fun e he => he) hinv

theorem build_hmic_temporal_inv (framesL : List FrameMap)
    (hdet : SigDetermines framesL) :
    MergeInv framesL (build_hmic_temporal framesL) := by
  rw [build_hmic_temporal]
  have init : MergeInv framesL ⟨List.replicate framesL.length [], []⟩ := by
    refine ⟨by simp, ?_, ?_, by simp⟩
    · intro f
      rw [List.getD_eq_getElem?_getD, List.getElem?_replicate]
      split <;> simp
    · intro f
      rw [List.getD_eq_getElem?_getD, List.getElem?_replicate]
      split <;> simp [claimedPairs]
  have main : ∀ (fs : List Nat) (st : MergeState),
      (∀ g ∈ fs, g < framesL.length) → MergeInv framesL st →
      MergeInv framesL
        (fs.foldl (fun st f => processFrame framesL framesL.length f st) st) := by
    intro fs
    induction fs with
    | nil => intro st _ hinv; exact hinv
    | cons g t ih =>
      intro st hfs hinv
      exact ih _ (fun q hq => hfs q (List.mem_cons_of_mem _ hq))
        (processFrame_inv framesL g st (hfs g (List.mem_cons_self _ _)) hdet hinv)
  refine main _ _ (fun g hg => ?_) init
  have := List.mem_range.mp hg
  omega

/-- The first pair of a frame with a given command, used to reconstruct a
pair list from its command part. -/
def pairFor (fm : FrameMap) (c : Command) : Option (RGBA × Command) :=
  (framePairs fm).find? (fun p => decide (p.2 = c))

theorem find?_snd_eq_self {A : List (RGBA × Command)}
    (hnd : A.Pairwise (fun p q => p.2 ≠ q.2)) {p : RGBA × Command} (hp : p ∈ A) :
    A.find? (fun q => decide (q.2 = p.2)) = some p := by
  induction A with
  | nil => simp at hp
  | cons a t ih =>
    rcases List.mem_cons.mp hp with rfl | hpt
    · exact List.find?_cons_of_pos _ (by simp)
    · have hne : a.2 ≠ p.2 := (List.pairwise_cons.mp hnd).1 p hpt
      rw [List.find?_cons_of_neg _ (by simp [hne])]
      exact ih (List.pairwise_cons.mp hnd).2 hpt

theorem filterMap_pairFor_map_snd (fm : FrameMap) (L : List (RGBA × Command))
    (hall : ∀ q ∈ L, pairFor fm q.2 = some q) :
    (L.map Prod.snd).filterMap (pairFor fm) = L := by
  induction L with
  | nil => rfl
  | cons q t ih =>
    rw [List.map_cons, List.filterMap_cons, hall q (List.mem_cons_self _ _)]
    rw [ih (fun r hr => hall r (List.mem_cons_of_mem _ hr))]

theorem map_snd_filter_mem (M : List Command) (A : List (RGBA × Command)) :
    (A.filter (fun p => decide (p.2 ∈ M))).map Prod.snd =
      (A.map Prod.snd).filter (fun d => decide (d ∈ M)) := by
  induction A with
  | nil => rfl
  | cons a t ih =>
    by_cases hm : a.2 ∈ M <;> simp [List.filter_cons, hm, ih]

/-- Claim C2: for every sequence of encoded frames (in-frame signatures are
pairwise distinct and color plus signature determine the command — both
guaranteed by the spatial encoder) and every frame `f`, the residual
commands of `f` together with the commands of every temporal block whose
frame list contains `f` are exactly the spatial-encoder output for `f`, and
no `(color, x_start, x_end, y)` signature appears twice for the same frame —
neither in two blocks nor in a block and a residual. -/
theorem temporal_exact_cover (framesL : List FrameMap)
    (hsig : SigUnique framesL) (hdet : SigDetermines framesL)
    (f : Nat) (hf : f < framesL.length) :
    List.Perm
      (residualPairs framesL (build_hmic_temporal framesL) f ++
        claimedPairs (build_hmic_temporal framesL).blocks (f + 1))
      (framePairs (framesL.getD f [])) ∧
    (residualPairs framesL (build_hmic_temporal framesL) f ++
      claimedPairs (build_hmic_temporal framesL).blocks (f + 1)).Pairwise
      (fun p q => ¬ (p.1 = q.1 ∧ p.2.sig = q.2.sig)) := by
  obtain ⟨hW, hA, hC, hD⟩ := build_hmic_temporal_inv framesL hdet
  have hsigA := hsig f hf
  have hsnd : (framePairs (framesL.getD f [])).Pairwise (fun p q => p.2 ≠ q.2) :=
    hsigA.imp (fun h heq => h (congrArg Command.sig heq))
  have hCLsub : ∀ q ∈ claimedPairs (build_hmic_temporal framesL).blocks (f + 1),
      q ∈ framePairs (framesL.getD f []) := by
    intro q hq
    rw [claimedPairs, List.mem_map] at hq
    obtain ⟨b, hbf, rfl⟩ := hq
    rw [List.mem_filter] at hbf
    exact hD b hbf.1 f (by simpa using hbf.2)
  have hCLfor : ∀ q ∈ claimedPairs (build_hmic_temporal framesL).blocks (f + 1),
      pairFor (framesL.getD f []) q.2 = some q :=
    fun q hq => find?_snd_eq_self hsnd (hCLsub q hq)
  have hsplit : List.Perm
      (residualPairs framesL (build_hmic_temporal framesL) f ++
        (framePairs (framesL.getD f [])).filter
          (fun p => decide (p.2 ∈ (build_hmic_temporal framesL).merged.getD f [])))
      (framePairs (framesL.getD f [])) := by
    have h0 := List.filter_append_perm
      (fun p => decide (p.2 ∈ (build_hmic_temporal framesL).merged.getD f []))
      (framePairs (framesL.getD f []))
    have hres : residualPairs framesL (build_hmic_temporal framesL) f =
        (framePairs (framesL.getD f [])).filter
          (fun p =>
            !(decide (p.2 ∈ (build_hmic_temporal framesL).merged.getD f []))) := by
      rw [residualPairs]
      congr 1
      funext p
      rw [decide_not]
    rw [hres]
    exact List.Perm.trans List.perm_append_comm h0
  have hsub : ∀ d ∈ (build_hmic_temporal framesL).merged.getD f [],
      d ∈ (framePairs (framesL.getD f [])).map Prod.snd := by
    intro d hd
    have hd2 : d ∈ (claimedPairs (build_hmic_temporal framesL).blocks
        (f + 1)).map Prod.snd := (hC f).mem_iff.mpr hd
    rw [List.mem_map] at hd2
    obtain ⟨q, hq, rfl⟩ := hd2
    exact List.mem_map.mpr ⟨q, hCLsub q hq, rfl⟩
  have hAinnd : ((framePairs (framesL.getD f [])).map Prod.snd).Nodup :=
    List.pairwise_map.mpr hsnd
  have hAinPerm : List.Perm
      (((framePairs (framesL.getD f [])).filter
        (fun p => decide (p.2 ∈ (build_hmic_temporal framesL).merged.getD f []))).map
          Prod.snd)
      ((build_hmic_temporal framesL).merged.getD f []) := by
    rw [map_snd_filter_mem]
    refine (List.perm_ext_iff_of_nodup (List.Nodup.filter _ hAinnd) (hA f)).mpr ?_
    intro d
    rw [List.mem_filter]
    constructor
    · rintro ⟨hdA, hdM⟩
      simpa using hdM
    · intro hdM
      exact ⟨hsub d hdM, by simpa using hdM⟩
  have hAinfor : ∀ q ∈ (framePairs (framesL.getD f [])).filter
      (fun p => decide (p.2 ∈ (build_hmic_temporal framesL).merged.getD f [])),
      pairFor (framesL.getD f []) q.2 = some q :=
    fun q hq => find?_snd_eq_self hsnd (List.mem_of_mem_filter hq)
  have hCLAin : List.Perm
      (claimedPairs (build_hmic_temporal framesL).blocks (f + 1))
      ((framePairs (framesL.getD f [])).filter
        (fun p => decide (p.2 ∈ (build_hmic_temporal framesL).merged.getD f []))) := by
    rw [← filterMap_pairFor_map_snd (framesL.getD f []) _ hCLfor,
      ← filterMap_pairFor_map_snd (framesL.getD f []) _ hAinfor]
    exact List.Perm.filterMap _ (List.Perm.trans (hC f) hAinPerm.symm)
  have hperm : List.Perm
      (residualPairs framesL (build_hmic_temporal framesL) f ++
        claimedPairs (build_hmic_temporal framesL).blocks (f + 1))
      (framePairs (framesL.getD f [])) :=
    List.Perm.trans (List.Perm.append_left _ hCLAin) hsplit
  refine ⟨hperm, ?_⟩
  have hAP : (framePairs (framesL.getD f [])).Pairwise
      (fun p q => ¬ (p.1 = q.1 ∧ p.2.sig = q.2.sig)) :=
    hsigA.imp (fun h hcon => h hcon.2)
  exact (List.Perm.pairwise_iff
    (fun h hcon => h ⟨hcon.1.symm, hcon.2.symm⟩) hperm).mpr hAP

/-- Witness for C2 on two identical one-command frames: frame 0's encoder
output is recovered exactly from residuals plus blocks. -/
theorem temporal_exact_cover_witness :
    List.Perm
      (residualPairs
          [[(⟨255, 0, 0, 255⟩, [⟨.PL 1 1 2 1, 0, 1, 0⟩])],
           [(⟨255, 0, 0, 255⟩, [⟨.PL 1 1 2 1, 0, 1, 0⟩])]]
          (build_hmic_temporal
            [[(⟨255, 0, 0, 255⟩, [⟨.PL 1 1 2 1, 0, 1, 0⟩])],
             [(⟨255, 0, 0, 255⟩, [⟨.PL 1 1 2 1, 0, 1, 0⟩])]]) 0 ++
        claimedPairs
          (build_hmic_temporal
            [[(⟨255, 0, 0, 255⟩, [⟨.PL 1 1 2 1, 0, 1, 0⟩])],
             [(⟨255, 0, 0, 255⟩, [⟨.PL 1 1 2 1, 0, 1, 0⟩])]]).blocks (0 + 1))
      (framePairs
        (([[(⟨255, 0, 0, 255⟩, [⟨.PL 1 1 2 1, 0, 1, 0⟩])],
           [(⟨255, 0, 0, 255⟩, [⟨.PL 1 1 2 1, 0, 1, 0⟩])]] : List FrameMap).getD 0 [])) ∧
    (residualPairs
        [[(⟨255, 0, 0, 255⟩, [⟨.PL 1 1 2 1, 0, 1, 0⟩])],
         [(⟨255, 0, 0, 255⟩, [⟨.PL 1 1 2 1, 0, 1, 0⟩])]]
        (build_hmic_temporal
          [[(⟨255, 0, 0, 255⟩, [⟨.PL 1 1 2 1, 0, 1, 0⟩])],
           [(⟨255, 0, 0, 255⟩, [⟨.PL 1 1 2 1, 0, 1, 0⟩])]]) 0 ++
      claimedPairs
        (build_hmic_temporal
          [[(⟨255, 0, 0, 255⟩, [⟨.PL 1 1 2 1, 0, 1, 0⟩])],
           [(⟨255, 0, 0, 255⟩, [⟨.PL 1 1 2 1, 0, 1, 0⟩])]]).blocks (0 + 1)).Pairwise
      (fun p q => ¬ (p.1 = q.1 ∧ p.2.sig = q.2.sig)) :=
  temporal_exact_cover
    [[(⟨255, 0, 0, 255⟩, [⟨.PL 1 1 2 1, 0, 1, 0⟩])],
     [(⟨255, 0, 0, 255⟩, [⟨.PL 1 1 2 1, 0, 1, 0⟩])]]
    (by unfold SigUnique; decide) (by unfold SigDetermines; decide) 0 (by decide)

/-- Epsilon of the audio run-length encoder (`1e-5` in
`compress_channel_data`). -/
def audioEpsilon : ℚ := 1 / 100000

/-- Length of the prefix of `rest` within epsilon of the reference value `v`
(the inner `while` of `compress_channel_data`; strict comparison, so a run
has length `aRunLen v rest + 1` counting the reference itself). -/
def aRunLen (v : ℚ) : List ℚ → Nat
  | [] => 0
  | s :: t => if |s - v| < audioEpsilon then aRunLen v t + 1 else 0

theorem aRunLen_le_length (v : ℚ) (l : List ℚ) : aRunLen v l ≤ l.length := by
  induction l with
  | nil => simp [aRunLen]
  | cons s t ih =>
    simp only [aRunLen, List.length_cons]
    split <;> omega

theorem aRunLen_close (v : ℚ) (l : List ℚ) :
    ∀ i, i < aRunLen v l → ∃ x, l[i]? = some x ∧ |x - v| < audioEpsilon := by
  induction l with
  | nil => simp [aRunLen]
  | cons s t ih =>
    intro i hi
    simp only [aRunLen] at hi
    by_cases hs : |s - v| < audioEpsilon
    · cases i with
      | zero => exact ⟨s, by simp, hs⟩
      | succ j =>
        rw [if_pos hs] at hi
        obtain ⟨x, hx, hxv⟩ := ih j (by omega)
        exact ⟨x, by simpa using hx, hxv⟩
    · rw [if_neg hs] at hi
      omega

/-- Six-decimal fixed-point printing of one emitted value
(`ss << std::fixed << std::setprecision(6)` in `compress_channel_data`):
round to the nearest multiple of `1e-6`.  Printing rounds to nearest; the
half-way tie direction is immaterial to the bounds below. -/
def q6 (x : ℚ) : ℚ := (⌊x * 1000000 + 1 / 2⌋ : ℚ) / 1000000

/-- Quantizing to six decimals moves a value by at most half a step. -/
theorem q6_close (x : ℚ) : |q6 x - x| ≤ 1 / 2000000 := by
  have h : |x * 1000000 - ((⌊x * 1000000 + 1 / 2⌋ : ℤ) : ℚ)| ≤ 1 / 2 := by
    have h0 := abs_sub_round (x * 1000000)
    rwa [round_eq] at h0
  rw [abs_sub_comm] at h
  rw [q6, show ((⌊x * 1000000 + 1 / 2⌋ : ℚ)) / 1000000 - x =
      ((⌊x * 1000000 + 1 / 2⌋ : ℚ) - x * 1000000) / 1000000 from by ring,
    abs_div, abs_of_pos (show (0 : ℚ) < 1000000 from by norm_num)]
  linarith

/-- One serialized audio token: an RLE span `start-end=value` or a literal
value.  The stream is six-decimal fixed-point text
(`ss << std::fixed << std::setprecision(6)`), so the value carried here is
the printed value — the writer quantizes with `q6` at emission, and
`std::stof` reads that decimal back (its binary-float representation error
follows the development's float-as-rational convention). -/
inductive ATok where
  | run (s e : Nat) (v : ℚ)
  | val (v : ℚ)
deriving DecidableEq

/-- `compress_channel_data` of con.cpp: runs of length ≥ 5 within epsilon of
the run's first sample become one `run` token `i-(i+k)=v`; shorter runs are
emitted as individual values.  `i` is the absolute index of the suffix.
Run detection compares the unquantized samples; every emitted value is
printed with six-decimal fixed-point formatting (`q6`). -/
def compress_channel_data : Nat → List ℚ → List ATok
  | _, [] => []
  | i, v :: rest =>
    let k := aRunLen v rest
    if k + 1 ≥ 5 then
      .run i (i + k) (q6 v) :: compress_channel_data (i + k + 1) (rest.drop k)
    else
      (v :: rest.take k).map (fun x => .val (q6 x)) ++
        compress_channel_data (i + k + 1) (rest.drop k)
termination_by _ l => l.length
decreasing_by
  all_goals
    simp only [List.length_drop, List.length_cons]
    omega

/-- The write loop of `parse_audio_channel`'s RLE branch
(`for (int i = start; i <= end; i++) samples[i] = value`), as a positional
overwrite of indices `sv..ev`. -/
def setRangeFrom (sv ev : Nat) (v : ℚ) : Nat → List ℚ → List ℚ
  | _, [] => []
  | i, x :: t => (if sv ≤ i ∧ i ≤ ev then v else x) :: setRangeFrom sv ev v (i + 1) t

/-- `parse_audio_channel`, one token: an RLE span pads the sample vector
with zeros while `size <= end` and overwrites `start..end` with the value; a
literal value is appended. -/
def parse_audio_token (samples : List ℚ) : ATok → List ℚ
  | .val v => samples ++ [v]
  | .run sv ev v =>
      setRangeFrom sv ev v 0 (samples ++ List.replicate (ev + 1 - samples.length) 0)

/-- `parse_audio_channel` over a token stream. -/
def parse_audio_channel (samples : List ℚ) (toks : List ATok) : List ℚ :=
  toks.foldl parse_audio_token samples

/-- Specification-side decode: a run is reproduced as its printed reference
value, literals as their printed values. -/
def decodedChannel : List ℚ → List ℚ
  | [] => []
  | v :: rest =>
    let k := aRunLen v rest
    if k + 1 ≥ 5 then
      List.replicate (k + 1) (q6 v) ++ decodedChannel (rest.drop k)
    else
      (v :: rest.take k).map q6 ++ decodedChannel (rest.drop k)
termination_by l => l.length
decreasing_by
  all_goals
    simp only [List.length_drop, List.length_cons]
    omega

theorem setRangeFrom_before (sv ev : Nat) (v : ℚ) :
    ∀ (l : List ℚ) (i : Nat), i + l.length ≤ sv → setRangeFrom sv ev v i l = l := by
  intro l
  induction l with
  | nil => intro i _; rfl
  | cons x t ih =>
    intro i hi
    simp only [List.length_cons] at hi
    rw [setRangeFrom, if_neg (by omega), ih (i + 1) (by omega)]

theorem setRangeFrom_inside (sv ev : Nat) (v : ℚ) :
    ∀ (m i : Nat), sv ≤ i → i + m ≤ ev + 1 →
      setRangeFrom sv ev v i (List.replicate m 0) = List.replicate m v := by
  intro m
  induction m with
  | zero => intro i _ _; rfl
  | succ m ih =>
    intro i h1 h2
    rw [List.replicate_succ, setRangeFrom, if_pos ⟨h1, by omega⟩,
      ih (i + 1) (by omega) (by omega), List.replicate_succ]

theorem setRangeFrom_append (sv ev : Nat) (v : ℚ) :
    ∀ (l1 l2 : List ℚ) (i : Nat),
      setRangeFrom sv ev v i (l1 ++ l2) =
        setRangeFrom sv ev v i l1 ++ setRangeFrom sv ev v (i + l1.length) l2 := by
  intro l1
  induction l1 with
  | nil => intro l2 i; simp [setRangeFrom]
  | cons x t ih =>
    intro l2 i
    rw [List.cons_append, setRangeFrom, setRangeFrom, ih, List.cons_append]
    have hidx : i + (x :: t).length = i + 1 + t.length := by
      simp only [List.length_cons]
      omega
    rw [hidx]

theorem parse_audio_token_run (samples : List ℚ) (k : Nat) (v : ℚ) :
    parse_audio_token samples (.run samples.length (samples.length + k) v) =
      samples ++ List.replicate (k + 1) v := by
  rw [parse_audio_token]
  have hlen : samples.length + k + 1 - samples.length = k + 1 := by omega
  rw [hlen, setRangeFrom_append,
    setRangeFrom_before _ _ _ samples 0 (by omega),
    setRangeFrom_inside _ _ _ (k + 1) (0 + samples.length) (by omega) (by omega)]

theorem parse_audio_vals (L : List ℚ) :
    ∀ acc, parse_audio_channel acc (L.map .val) = acc ++ L := by
  induction L with
  | nil => intro acc; simp [parse_audio_channel]
  | cons v t ih =>
    intro acc
    rw [List.map_cons, parse_audio_channel, List.foldl_cons]
    have := ih (acc ++ [v])
    rw [parse_audio_channel] at this
    rw [show parse_audio_token acc (ATok.val v) = acc ++ [v] from rfl, this]
    simp

theorem parse_audio_channel_append (t1 t2 : List ATok) (acc : List ℚ) :
    parse_audio_channel acc (t1 ++ t2) =
      parse_audio_channel (parse_audio_channel acc t1) t2 := by
  simp [parse_audio_channel, List.foldl_append]

/-- Parsing the serialized stream appends exactly the specification-side
decode of the channel. -/
theorem parse_compress_eq :
    ∀ (i : Nat) (l : List ℚ) (acc : List ℚ), acc.length = i →
      parse_audio_channel acc (compress_channel_data i l) =
        acc ++ decodedChannel l := by
  intro i l
  induction i, l using compress_channel_data.induct with
  | case1 i =>
    intro acc hacc
    simp [compress_channel_data, parse_audio_channel, decodedChannel]
  | case2 i v rest k hge ih =>
    intro acc hacc
    rw [compress_channel_data]
    simp only [if_pos hge]
    rw [parse_audio_channel, List.foldl_cons]
    subst hacc
    rw [show parse_audio_token acc (ATok.run acc.length (acc.length + k)
          (q6 v)) =
        acc ++ List.replicate (k + 1) (q6 v) from
      parse_audio_token_run acc k (q6 v)]
    have hlen2 : (acc ++ List.replicate (k + 1) (q6 v)).length =
        acc.length + k + 1 := by
      simp; omega
    have := ih (acc ++ List.replicate (k + 1) (q6 v)) hlen2
    rw [parse_audio_channel] at this
    rw [this, decodedChannel]
    simp only [if_pos hge, List.append_assoc]
  | case3 i v rest k hlt ih =>
    intro acc hacc
    rw [compress_channel_data]
    simp only [if_neg hlt]
    rw [show (v :: rest.take k).map (fun x => ATok.val (q6 x)) =
        ((v :: rest.take k).map q6).map ATok.val from by
      simp [List.map_map, Function.comp_def]]
    rw [parse_audio_channel_append, parse_audio_vals]
    subst hacc
    have hk : k ≤ rest.length := aRunLen_le_length v rest
    have hlen2 : (acc ++ (v :: rest.take k).map q6).length =
        acc.length + k + 1 := by
      simp only [List.length_append, List.length_map, List.length_cons,
        List.length_take]
      omega
    rw [ih (acc ++ (v :: rest.take k).map q6) hlen2, decodedChannel]
    simp only [if_neg hlt, List.append_assoc]

theorem audioEpsilon_nonneg : (0 : ℚ) ≤ audioEpsilon := by
  norm_num [audioEpsilon]

/-- A printed value stays within the run tolerance plus half a
quantization step of any sample the tolerance covered. -/
theorem q6_err_le (x y : ℚ) (h : |x - y| ≤ audioEpsilon) :
    |q6 x - y| ≤ audioEpsilon + 1 / 2000000 := by
  have h1 := q6_close x
  have h2 := abs_sub_le (q6 x) x y
  linarith

theorem decodedChannel_length (l : List ℚ) :
    (decodedChannel l).length = l.length := by
  induction l using decodedChannel.induct with
  | case1 => rw [decodedChannel]
  | case2 v rest k hge ih =>
    rw [decodedChannel]
    simp only [if_pos hge, List.length_append, List.length_replicate, ih,
      List.length_drop, List.length_cons]
    have := aRunLen_le_length v rest
    omega
  | case3 v rest k hlt ih =>
    rw [decodedChannel]
    simp only [if_neg hlt, List.length_append, List.length_map, List.length_cons,
      List.length_take, ih, List.length_drop]
    have := aRunLen_le_length v rest
    omega

theorem decodedChannel_close (l : List ℚ) :
    ∀ i, i < l.length →
      ∃ a b, l[i]? = some a ∧ (decodedChannel l)[i]? = some b ∧
        |b - a| ≤ audioEpsilon + 1 / 2000000 := by
  induction l using decodedChannel.induct with
  | case1 => intro i hi; simp at hi
  | case2 v rest k hge ih =>
    intro i hi
    rw [decodedChannel]
    simp only [if_pos hge]
    have hk : k ≤ rest.length := aRunLen_le_length v rest
    by_cases hik : i < k + 1
    · have hdec : (List.replicate (k + 1) (q6 v) ++
          decodedChannel (rest.drop k))[i]? = some (q6 v) := by
        rw [List.getElem?_append_left (by simp; omega)]
        exact List.getElem?_replicate_of_lt hik
      cases i with
      | zero =>
        refine ⟨v, q6 v, by simp, hdec, ?_⟩
        exact q6_err_le v v (by rw [sub_self, abs_zero]; exact audioEpsilon_nonneg)
      | succ j =>
        obtain ⟨x, hx, hxv⟩ := aRunLen_close v rest j (by omega)
        refine ⟨x, q6 v, by simpa using hx, hdec, ?_⟩
        exact q6_err_le v x (le_of_lt (by rwa [abs_sub_comm]))
    · obtain ⟨j, rfl⟩ : ∃ j, i = k + 1 + j := ⟨i - (k + 1), by omega⟩
      have hjlen : j < (rest.drop k).length := by
        simp only [List.length_drop]
        simp only [List.length_cons] at hi
        omega
      obtain ⟨a, b, ha, hb, hab⟩ := ih j hjlen
      rw [List.getElem?_drop] at ha
      refine ⟨a, b, ?_, ?_, hab⟩
      · have hidx : k + 1 + j = (k + j) + 1 := by omega
        rw [hidx, List.getElem?_cons_succ]
        exact ha
      · rw [List.getElem?_append_right (by simp only [List.length_replicate]; omega)]
        have hidx : k + 1 + j - (List.replicate (k + 1) (q6 v)).length = j := by
          simp only [List.length_replicate]
          omega
        rw [hidx]
        exact hb
  | case3 v rest k hlt ih =>
    intro i hi
    rw [decodedChannel]
    simp only [if_neg hlt]
    have hk : k ≤ rest.length := aRunLen_le_length v rest
    have hvi : ((v :: rest.take k).map q6).length = k + 1 := by
      simp only [List.length_map, List.length_cons, List.length_take]
      omega
    by_cases hik : i < k + 1
    · cases i with
      | zero =>
        refine ⟨v, q6 v, by simp, ?_, ?_⟩
        · rw [List.getElem?_append_left (by rw [hvi]; omega)]
          simp
        · exact q6_err_le v v (by rw [sub_self, abs_zero]; exact audioEpsilon_nonneg)
      | succ j =>
        have hjk : j < k := by omega
        have hjr : j < rest.length := by omega
        refine ⟨rest[j], q6 rest[j],
          by rw [List.getElem?_cons_succ]; exact List.getElem?_eq_getElem hjr,
          ?_, ?_⟩
        · rw [List.getElem?_append_left (by rw [hvi]; omega), List.getElem?_map,
            List.getElem?_cons_succ, List.getElem?_take_of_lt hjk,
            List.getElem?_eq_getElem hjr]
          rfl
        · exact q6_err_le rest[j] rest[j]
            (by rw [sub_self, abs_zero]; exact audioEpsilon_nonneg)
    · obtain ⟨j, rfl⟩ : ∃ j, i = k + 1 + j := ⟨i - (k + 1), by omega⟩
      have hjlen : j < (rest.drop k).length := by
        simp only [List.length_drop]
        simp only [List.length_cons] at hi
        omega
      obtain ⟨a, b, ha, hb, hab⟩ := ih j hjlen
      rw [List.getElem?_drop] at ha
      refine ⟨a, b, ?_, ?_, hab⟩
      · have hidx : k + 1 + j = (k + j) + 1 := by omega
        rw [hidx, List.getElem?_cons_succ]
        exact ha
      · rw [List.getElem?_append_right (by rw [hvi]; omega)]
        rw [show k + 1 + j - ((v :: rest.take k).map q6).length = j from by
          rw [hvi]
          omega]
        exact hb

/-- Claim C5, corrected: serializing a channel with the audio run-length
encoder (epsilon `1e-5`, runs of length ≥ 5 emitted as
`start-end=reference`, shorter runs emitted as individual values, every
emitted value printed in six-decimal fixed-point) and parsing the stream
back yields a channel of the same length in which every decoded sample
differs from the corresponding original by at most epsilon plus half a
quantization step (`1e-5 + 5e-7`).  The spec's bare `1e-5` bound does not
survive the quantization — see the counterexample. -/
theorem audio_rle_roundtrip_bound (samples : List ℚ) :
    (parse_audio_channel [] (compress_channel_data 0 samples)).length =
      samples.length ∧
    ∀ i, i < samples.length →
      ∃ a b, samples[i]? = some a ∧
        (parse_audio_channel [] (compress_channel_data 0 samples))[i]? = some b ∧
        |b - a| ≤ audioEpsilon + 1 / 2000000 := by
  have h := parse_compress_eq 0 samples [] rfl
  rw [h, List.nil_append]
  exact ⟨decodedChannel_length samples, decodedChannel_close samples⟩

/-- Witness for C5 on a concrete channel: five equal samples become one run
token, the sixth sample is a literal; decoding stays within the corrected
bound. -/
theorem audio_rle_roundtrip_bound_witness :
    ((parse_audio_channel []
        (compress_channel_data 0 [1, 1, 1, 1, 1, 1/2])).length =
      ([1, 1, 1, 1, 1, 1/2] : List ℚ).length ∧
    ∀ i, i < ([1, 1, 1, 1, 1, 1/2] : List ℚ).length →
      ∃ a b, ([1, 1, 1, 1, 1, 1/2] : List ℚ)[i]? = some a ∧
        (parse_audio_channel []
          (compress_channel_data 0 [1, 1, 1, 1, 1, 1/2]))[i]? = some b ∧
        |b - a| ≤ audioEpsilon + 1 / 2000000) :=
  audio_rle_roundtrip_bound [1, 1, 1, 1, 1, 1/2]

/-- Counterexample to C5 as stated: the channel
`[0.1000004, 0.1000103, 0.1000103, 0.1000103, 0.1000103]` forms one run —
each member is within `1e-5` of the reference `0.1000004` — but the
reference prints as `0.100000`, so the decoded second sample is `0.1` and
errs from its original `0.1000103` by `1.03e-5 > 1e-5`. -/
theorem audio_rle_roundtrip_counterexample :
    ([1000004 / 10000000, 1000103 / 10000000, 1000103 / 10000000,
        1000103 / 10000000, 1000103 / 10000000] : List ℚ)[1]? =
      some (1000103 / 10000000) ∧
    (parse_audio_channel [] (compress_channel_data 0
        [1000004 / 10000000, 1000103 / 10000000, 1000103 / 10000000,
         1000103 / 10000000, 1000103 / 10000000]))[1]? = some (1 / 10) ∧
    audioEpsilon < |(1 / 10 : ℚ) - 1000103 / 10000000| := by
  have hmc : |(1000103 / 10000000 : ℚ) - 1000004 / 10000000| < audioEpsilon := by
    rw [show (1000103 / 10000000 : ℚ) - 1000004 / 10000000 = 99 / 10000000 from by
      norm_num, abs_of_nonneg (by norm_num)]
    norm_num [audioEpsilon]
  have h1 : aRunLen (1000004 / 10000000 : ℚ)
      [1000103 / 10000000, 1000103 / 10000000, 1000103 / 10000000,
       1000103 / 10000000] = 4 := by
    simp only [aRunLen, if_pos hmc]
  have h3 : q6 (1000004 / 10000000 : ℚ) = 1 / 10 := by
    rw [q6, show (1000004 / 10000000 : ℚ) * 1000000 + 1 / 2 = 1000009 / 10 from by
      norm_num]
    rw [show ⌊(1000009 / 10 : ℚ)⌋ = 100000 from by
      rw [Int.floor_eq_iff]
      constructor <;> norm_num]
    norm_num
  have h2 : compress_channel_data 0
      [1000004 / 10000000, 1000103 / 10000000, 1000103 / 10000000,
       1000103 / 10000000, 1000103 / 10000000] = [ATok.run 0 4 (1 / 10)] := by
    rw [compress_channel_data]
    simp only [h1, h3]
    rw [if_pos (by norm_num : 4 + 1 ≥ 5)]
    rw [show ([1000103 / 10000000, 1000103 / 10000000, 1000103 / 10000000,
        1000103 / 10000000] : List ℚ).drop 4 = [] from rfl]
    simp only [compress_channel_data]
  have h4 : parse_audio_channel [] [ATok.run 0 4 (1 / 10 : ℚ)] =
      [1/10, 1/10, 1/10, 1/10, 1/10] := by
    rw [parse_audio_channel, List.foldl_cons, List.foldl_nil, parse_audio_token]
    norm_num
    rw [show List.replicate 5 (0 : ℚ) = [0, 0, 0, 0, 0] from rfl]
    simp [setRangeFrom]
  refine ⟨rfl, ?_, ?_⟩
  · rw [h2, h4]
    rfl
  · rw [show (1 / 10 : ℚ) - 1000103 / 10000000 = -(103 / 10000000) from by
      norm_num, abs_neg, abs_of_nonneg (by norm_num)]
    norm_num [audioEpsilon]

/-- Audio-callback-visible state of the fast player (play.cpp): the target
published by the video clock and the callback's own sample cursor. -/
structure AudioCbState where
  playing : Bool
  hasAudio : Bool
  targetSample : Int
  audioPos : Int
deriving DecidableEq

/-- One sample step of the fill loop of play.cpp's `audio_callback`:
`audio_sample_pos++` then wrap to 0 once it reaches the total sample
count. -/
def advanceOne (total : Int) (p : Int) : Int :=
  if p + 1 ≥ total then 0 else p + 1

/-- `n` sample steps of the fill loop. -/
def advanceN (total : Int) (n : Nat) (p : Int) : Int :=
  (advanceOne total)^[n] p

/-- The `audio_callback` of play.cpp for a fill request of `n` sample
frames: no state change unless playing with audio; otherwise a hard resync
of the cursor to the published target when `|target - cursor|` exceeds
`sample_rate / 10`, followed by `n` cursor advances. -/
def audio_callback (rate : Nat) (total : Int) (n : Nat) (st : AudioCbState) :
    AudioCbState :=
  if st.playing && st.hasAudio then
    let corrected :=
      if |st.targetSample - st.audioPos| > ((rate / 10 : Nat) : Int) then
        st.targetSample
      else st.audioPos
    { st with audioPos := advanceN total n corrected }
  else st

/-- Claim C7: in the video-led audio callback, when the published target `T`
and the cursor `C` satisfy `|T - C| > sample_rate/10`, the callback
hard-resyncs the cursor to `T` before consuming; when
`|T - C| ≤ sample_rate/10` the correction logic leaves the cursor
unchanged; in both cases the cursor then advances exactly by the `n`
samples consumed by that invocation, and the published target is not
modified by the callback. -/
theorem audio_drift_correction (rate : Nat) (total : Int) (n : Nat)
    (st : AudioCbState) (hp : st.playing = true) (ha : st.hasAudio = true) :
    (audio_callback rate total n st).audioPos =
      advanceN total n
        (if |st.targetSample - st.audioPos| > ((rate / 10 : Nat) : Int)
          then st.targetSample else st.audioPos) ∧
    (audio_callback rate total n st).targetSample = st.targetSample := by
  rw [audio_callback]
  simp [hp, ha]

/-- Witness for C7 at sample rate 10 (threshold 1): a drift of 300 samples
resyncs the cursor to the target, a drift of 1 sample leaves it at 4; zero
samples are consumed so the cursor values are exact. -/
theorem audio_drift_correction_witness :
    (audio_callback 10 1000 0 ⟨true, true, 300, 0⟩).audioPos = 300 ∧
    (audio_callback 10 1000 0 ⟨true, true, 5, 4⟩).audioPos = 4 := by
  constructor
  · rw [(audio_drift_correction 10 1000 0 ⟨true, true, 300, 0⟩ rfl rfl).1]
    decide
  · rw [(audio_drift_correction 10 1000 0 ⟨true, true, 5, 4⟩ rfl rfl).1]
    decide

/-- The eight magic bytes `"HMICFAST"`. -/
def hmicMagic : List Nat := [72, 77, 73, 67, 70, 65, 83, 84]

/-- Little-endian value of a byte list (x86 native layout of the packed
header fields). -/
def leValue : List Nat → Nat
  | [] => 0
  | b :: t => b + 256 * leValue t

/-- Little-endian encoding of `v` in `k` bytes. -/
def leBytes : Nat → Nat → List Nat
  | 0, _ => []
  | k + 1, v => (v % 256) :: leBytes k (v / 256)

/-- Read the `k`-byte little-endian field at byte offset `off`. -/
def readLE (file : List Nat) (off k : Nat) : Nat :=
  leValue ((file.drop off).take k)

/-- Decoded `HMICFastHeader` (packed layout, 59 bytes): magic[8],
version u32, width u32, height u32, fps u32, total_frames u32, has_audio
u8, compressed u8, audio_sample_rate u32, audio_channels u8,
audio_samples u64, frame_index_offset u64, audio_data_offset u64. -/
structure HeaderV where
  magic : List Nat
  version : Nat
  width : Nat
  height : Nat
  fps : Nat
  total_frames : Nat
  has_audio : Nat
  compressed : Nat
  audio_sample_rate : Nat
  audio_channels : Nat
  audio_samples : Nat
  frame_index_offset : Nat
  audio_data_offset : Nat
deriving DecidableEq

/-- Reading the raw-cast header fields at their packed byte offsets. -/
def parseHeader (file : List Nat) : HeaderV :=
  { magic := file.take 8
    version := readLE file 8 4
    width := readLE file 12 4
    height := readLE file 16 4
    fps := readLE file 20 4
    total_frames := readLE file 24 4
    has_audio := readLE file 28 1
    compressed := readLE file 29 1
    audio_sample_rate := readLE file 30 4
    audio_channels := readLE file 34 1
    audio_samples := readLE file 35 8
    frame_index_offset := readLE file 43 8
    audio_data_offset := readLE file 51 8 }

/-- `load_hmicfast` of play.cpp: map the file, compare the first eight
bytes against the magic, and on success expose the header view (the pointer
setup); on a mismatch the mapping is released, the descriptor closed, and
nothing is retained — modelled as `none`. -/
def load_hmicfast (file : List Nat) : Option HeaderV :=
  if file.take 8 = hmicMagic then some (parseHeader file) else none

/-- Claim C8: loading a container whose first 8 bytes are not `"HMICFAST"`
fails, and the failure is decided by those 8 bytes alone — every file
agreeing on them fails identically, so no byte past the magic influences
the outcome and no loader state survives (the result carries nothing). -/
theorem load_bad_magic (file : List Nat) (h : file.take 8 ≠ hmicMagic) :
    load_hmicfast file = none ∧
    ∀ g : List Nat, g.take 8 = file.take 8 → load_hmicfast g = none := by
  constructor
  · rw [load_hmicfast, if_neg h]
  · intro g hg
    rw [load_hmicfast, if_neg (by rw [hg]; exact h)]

/-- Witness for C8: a three-byte junk file fails to load, as does every
file sharing its first bytes. -/
theorem load_bad_magic_witness :
    load_hmicfast [0, 1, 2] = none ∧
    ∀ g : List Nat, g.take 8 = ([0, 1, 2] : List Nat).take 8 →
      load_hmicfast g = none :=
  load_bad_magic [0, 1, 2] (by decide)

/-- `get_frame_data` of play.cpp.  `decomp` abstracts `ZSTD_decompress`
together with its destination-capacity check (`ZSTD_isError` on failure).
The uncompressed path is the zero-copy pointer `frames_base + entry.offset
- (sizeof header + sizeof entries)`; since `frames_base` sits
`sizeof header + sizeof entries` bytes into the file, the file offset
reduces to `entry.offset` itself, and the frame is `width*height*4`
bytes. -/
def get_frame_data (decomp : List Nat → Option (List Nat)) (file : List Nat)
    (i : Int) : Option (List Nat) :=
  if i < 0 ∨ ((parseHeader file).total_frames : Int) ≤ i then none
  else
    let hd := parseHeader file
    let entryOff := readLE file (hd.frame_index_offset + 12 * i.toNat) 8
    let entrySize := readLE file (hd.frame_index_offset + 12 * i.toNat + 8) 4
    let base := 59 + 12 * hd.total_frames
    let fileOff := base + entryOff - base
    if hd.compressed = 0 then
      some ((file.drop fileOff).take (4 * (hd.width * hd.height)))
    else
      match decomp ((file.drop fileOff).take entrySize) with
      | some b => if b.length ≤ 4 * (hd.width * hd.height) then some b else none
      | none => none

/-- A seek key of play.cpp's event loop. -/
inductive SeekKey where
  | left
  | right
  | up
  | down
  | home
  | endKey
deriving DecidableEq

/-- The seek handlers of play.cpp: LEFT/RIGHT step one frame, UP/DOWN step
ten, HOME jumps to frame 0, END to the last frame; steps are clamped with
`std::max(0, ...)` / `std::min(total_frames - 1, ...)`. -/
def seek_step (total cur : Int) : SeekKey → Int
  | .left => max 0 (cur - 1)
  | .right => min (total - 1) (cur + 1)
  | .up => min (total - 1) (cur + 10)
  | .down => max 0 (cur - 10)
  | .home => 0
  | .endKey => total - 1

/-- Claim C9: every seek request leaves `current_frame` in
`[0, total_frames - 1]` — seeking past the last frame clamps to it — and
frame lookup for an index outside `[0, total_frames)` returns no data, so
no out-of-range read of frame payload memory occurs. -/
theorem seek_clamps_and_guard (total cur : Int) (key : SeekKey)
    (htotal : 1 ≤ total) (hcur0 : 0 ≤ cur) (hcur1 : cur < total) :
    (0 ≤ seek_step total cur key ∧ seek_step total cur key ≤ total - 1) ∧
    ∀ (decomp : List Nat → Option (List Nat)) (file : List Nat) (i : Int),
      (i < 0 ∨ ((parseHeader file).total_frames : Int) ≤ i) →
      get_frame_data decomp file i = none := by
  constructor
  · cases key <;> simp only [seek_step] <;> omega
  · intro decomp file i hi
    rw [get_frame_data, if_pos hi]

/-- Witness for C9: with 5 frames, stepping right from the last frame stays
at frame 4, and looking up frame 7 of an empty file yields nothing. -/
theorem seek_clamps_and_guard_witness :
    ((0 ≤ seek_step 5 4 .right ∧ seek_step 5 4 .right ≤ 5 - 1) ∧
    ∀ (decomp : List Nat → Option (List Nat)) (file : List Nat) (i : Int),
      (i < 0 ∨ ((parseHeader file).total_frames : Int) ≤ i) →
      get_frame_data decomp file i = none) :=
  seek_clamps_and_guard 5 4 .right (by decide) (by decide) (by decide)

/-- Player `Frame` record of part_000: the 1-based frame number and the
color → command-line map (stored lines modelled as their parsed
`CmdText`). -/
structure PFrame where
  frame_number : Int
  commands : List (RGBA × List CmdText)
deriving DecidableEq

instance : Inhabited PFrame := ⟨⟨0, []⟩⟩

/-- Ordered-map insert of one command line into a frame's color map
(`frames[fn-1].commands[current_color].push_back(line)`). -/
def addLine (col : RGBA) (line : CmdText) :
    List (RGBA × List CmdText) → List (RGBA × List CmdText)
  | [] => [(col, [line])]
  | (k, l) :: t =>
    if col = k then (k, l ++ [line]) :: t
    else if RGBA.ltb col k then (col, [line]) :: (k, l) :: t
    else (k, l) :: addLine col line t

/-- Applying one `P=`/`PL=` line of `parse_hmicav` to the frames array: for
each frame number of the current range, the line is stored only under the
guard `fn > 0 && fn <= video_info.total_frames`; other numbers are
skipped without any effect. -/
def apply_visual_command (total : Int) (rangeList : List Int) (col : RGBA)
    (line : CmdText) (frames : List PFrame) : List PFrame :=
  rangeList.foldl
    (fun fs fn =>
      if 0 < fn ∧ fn ≤ total then
        fs.set (fn - 1).toNat
          ⟨fn, addLine col line ((fs.getD (fn - 1).toNat default).commands)⟩
      else fs)
    frames

/-- Claim C10: a `P`/`PL` command whose frame-range list references indices
outside `[1, total_frames]` is silently discarded for those indices — the
result equals applying only the in-range indices, the frames array keeps
its length (no out-of-bounds write), and every position not named by an
in-range index of the list is untouched (nothing is written to any other
frame's command map, and no error is raised: the function is total). -/
theorem visual_command_range_guard (total : Int) (rangeList : List Int)
    (col : RGBA) (line : CmdText) (frames : List PFrame) :
    apply_visual_command total rangeList col line frames =
      apply_visual_command total
        (rangeList.filter (fun fn => decide (0 < fn ∧ fn ≤ total)))
        col line frames ∧
    (apply_visual_command total rangeList col line frames).length =
      frames.length ∧
    ∀ j : Nat,
      (∀ fn ∈ rangeList, ¬ (0 < fn ∧ fn ≤ total ∧ (fn - 1).toNat = j)) →
      (apply_visual_command total rangeList col line frames)[j]? = frames[j]? := by
  induction rangeList generalizing frames with
  | nil => exact ⟨rfl, rfl, fun j _ => rfl⟩
  | cons fn t ih =>
    by_cases hin : 0 < fn ∧ fn ≤ total
    · have hstep : apply_visual_command total (fn :: t) col line frames =
          apply_visual_command total t col line
            (frames.set (fn - 1).toNat
              ⟨fn, addLine col line ((frames.getD (fn - 1).toNat default).commands)⟩) := by
        rw [apply_visual_command, List.foldl_cons, if_pos hin]
        rfl
      have hfilt : (fn :: t).filter (fun fn => decide (0 < fn ∧ fn ≤ total)) =
          fn :: t.filter (fun fn => decide (0 < fn ∧ fn ≤ total)) := by
        rw [List.filter_cons, if_pos (by simpa using hin)]
      obtain ⟨ih1, ih2, ih3⟩ := ih (frames.set (fn - 1).toNat
        ⟨fn, addLine col line ((frames.getD (fn - 1).toNat default).commands)⟩)
      refine ⟨?_, ?_, ?_⟩
      · rw [hstep, hfilt, ih1]
        have hstep2 : apply_visual_command total
            (fn :: t.filter (fun fn => decide (0 < fn ∧ fn ≤ total))) col line frames =
            apply_visual_command total
              (t.filter (fun fn => decide (0 < fn ∧ fn ≤ total))) col line
              (frames.set (fn - 1).toNat
                ⟨fn, addLine col line
                  ((frames.getD (fn - 1).toNat default).commands)⟩) := by
          rw [apply_visual_command, List.foldl_cons, if_pos hin]
          rfl
        rw [hstep2]
      · rw [hstep, ih2, List.length_set]
      · intro j hj
        have := hj fn (List.mem_cons_self _ _)
        rw [hstep, ih3 j (fun g hg => hj g (List.mem_cons_of_mem _ hg)),
          List.getElem?_set_ne (fun hcon => this ⟨hin.1, hin.2, hcon⟩)]
    · have hstep : apply_visual_command total (fn :: t) col line frames =
          apply_visual_command total t col line frames := by
        rw [apply_visual_command, List.foldl_cons, if_neg hin]
        rfl
      have hfilt : (fn :: t).filter (fun fn => decide (0 < fn ∧ fn ≤ total)) =
          t.filter (fun fn => decide (0 < fn ∧ fn ≤ total)) := by
        rw [List.filter_cons, if_neg (by simpa using hin)]
      obtain ⟨ih1, ih2, ih3⟩ := ih frames
      exact ⟨by rw [hstep, hfilt]; exact ih1, by rw [hstep]; exact ih2,
        fun j hj => by
          rw [hstep, ih3 j (fun g hg => hj g (List.mem_cons_of_mem _ hg))]⟩

/-- Witness for C10: total 2 frames, range `[0, 1, 3]` — only index 1 is
stored, the out-of-range 0 and 3 are dropped, lengths and other entries are
preserved. -/
theorem visual_command_range_guard_witness :
    (apply_visual_command 2 [0, 1, 3] ⟨1, 2, 3, 4⟩ (.P 1 1) [default, default] =
      apply_visual_command 2
        (([0, 1, 3] : List Int).filter (fun fn => decide (0 < fn ∧ fn ≤ 2)))
        ⟨1, 2, 3, 4⟩ (.P 1 1) [default, default] ∧
    (apply_visual_command 2 [0, 1, 3] ⟨1, 2, 3, 4⟩ (.P 1 1)
      [default, default]).length = ([default, default] : List PFrame).length ∧
    ∀ j : Nat,
      (∀ fn ∈ ([0, 1, 3] : List Int), ¬ (0 < fn ∧ fn ≤ 2 ∧ (fn - 1).toNat = j)) →
      (apply_visual_command 2 [0, 1, 3] ⟨1, 2, 3, 4⟩ (.P 1 1)
        [default, default])[j]? = ([default, default] : List PFrame)[j]?) :=
  visual_command_range_guard 2 [0, 1, 3] ⟨1, 2, 3, 4⟩ (.P 1 1) [default, default]

/-- Raw byte dump of one frame buffer: r, g, b, a per pixel in order
(`file.write((char*)frame.data(), frame.size() * sizeof(RGBA))`). -/
def frameBytes (frame : List RGBA) : List Nat :=
  frame.flatMap (fun p => [p.r, p.g, p.b, p.a])

/-- One frame's on-disk payload: the raw bytes, or one independently
compressed block (per-frame `ZSTD_compress`, abstracted as `comp`). -/
def framePayload (comp : List Nat → List Nat) (compress : Bool)
    (frame : List RGBA) : List Nat :=
  if compress then comp (frameBytes frame) else frameBytes frame

/-- Total byte size of a payload list. -/
def sumLen (ps : List (List Nat)) : Nat := (ps.map List.length).sum

/-- The frame index table: per frame an 8-byte offset and a 4-byte size,
offsets accumulated in write order (`frame_index[i].offset = file.tellp()`,
`frame_index[i].size` the written size). -/
def indexBytes (off : Nat) : List (List Nat) → List Nat
  | [] => []
  | p :: rest =>
      leBytes 8 off ++ leBytes 4 p.length ++ indexBytes (off + p.length) rest

/-- The final 59 header bytes of a file written without audio (the claim
concerns only frame payloads): magic, version 1, dimensions, fps, frame
count, has_audio 0, the compressed flag, zeroed audio fields,
frame_index_offset 59 (the index is written right after the header and the
rewrite pass records that position), audio_data_offset 0. -/
def headerBytes (w h fps N : Nat) (compress : Bool) : List Nat :=
  hmicMagic ++ leBytes 4 1 ++ leBytes 4 w ++ leBytes 4 h ++ leBytes 4 fps ++
    leBytes 4 N ++ [0] ++ [if compress then 1 else 0] ++ leBytes 4 0 ++ [0] ++
    leBytes 8 0 ++ leBytes 8 59 ++ leBytes 8 0

/-- `write_hmicfast_binary` (audio absent): the file bytes after the final
header/index rewrite — header, index table, then the payloads in frame
order. -/
def write_hmicfast_binary (w h fps : Nat) (frames : List (List RGBA))
    (comp : List Nat → List Nat) (compress : Bool) : List Nat :=
  headerBytes w h fps frames.length compress ++
    indexBytes (59 + 12 * frames.length)
      (frames.map (framePayload comp compress)) ++
    (frames.map (framePayload comp compress)).flatten

theorem length_leBytes (k : Nat) : ∀ v, (leBytes k v).length = k := by
  induction k with
  | zero => intro v; rfl
  | succ k ih => intro v; simp [leBytes, ih]

theorem leValue_leBytes (k : Nat) : ∀ v, leValue (leBytes k v) = v % 256 ^ k := by
  induction k with
  | zero => intro v; simp [leBytes, leValue, Nat.mod_one]
  | succ k ih =>
    intro v
    rw [leBytes, leValue, ih, pow_succ']
    exact Nat.mod_mul.symm

theorem length_headerBytes (w h fps N : Nat) (compress : Bool) :
    (headerBytes w h fps N compress).length = 59 := by
  simp [headerBytes, hmicMagic, length_leBytes]

theorem length_indexBytes : ∀ (ps : List (List Nat)) (off : Nat),
    (indexBytes off ps).length = 12 * ps.length := by
  intro ps
  induction ps with
  | nil => intro off; rfl
  | cons p t ih =>
    intro off
    simp only [indexBytes, List.length_append, length_leBytes, ih,
      List.length_cons]
    omega

theorem readLE_append_left (l1 l2 : List Nat) (off k : Nat)
    (h : off + k ≤ l1.length) :
    readLE (l1 ++ l2) off k = readLE l1 off k := by
  rw [readLE, readLE, List.drop_append_of_le_length (by omega),
    List.take_append_eq_append_take]
  have hz : k - (l1.drop off).length = 0 := by
    simp only [List.length_drop]
    omega
  rw [hz]
  simp

theorem readLE_append_right (l1 l2 : List Nat) (off k : Nat)
    (h : l1.length ≤ off) :
    readLE (l1 ++ l2) off k = readLE l2 (off - l1.length) k := by
  rw [readLE, readLE]
  obtain ⟨m, hm⟩ : ∃ m, off = l1.length + m := ⟨off - l1.length, by omega⟩
  subst hm
  have hsub : l1.length + m - l1.length = m := by omega
  rw [hsub, List.drop_append]

theorem readLE_here (pre : List Nat) (k v : Nat) (rest : List Nat) :
    readLE (pre ++ (leBytes k v ++ rest)) pre.length k = v % 256 ^ k := by
  rw [readLE, List.drop_left, List.take_left' (length_leBytes k v),
    leValue_leBytes]

theorem sumLen_append (a b : List (List Nat)) :
    sumLen (a ++ b) = sumLen a + sumLen b := by
  simp [sumLen]

theorem sumLen_take_le (ps : List (List Nat)) (i : Nat) :
    sumLen (ps.take i) ≤ sumLen ps := by
  conv_rhs => rw [← List.take_append_drop i ps]
  rw [sumLen_append]
  omega

theorem length_frameBytes (fr : List RGBA) :
    (frameBytes fr).length = 4 * fr.length := by
  induction fr with
  | nil => rfl
  | cons p t ih =>
    simp only [frameBytes, List.flatMap_cons, List.length_append] at ih ⊢
    simp only [List.length_cons, List.length_nil]
    omega

theorem getD_map_payload (f : List RGBA → List Nat) (l : List (List RGBA))
    (i : Nat) (hi : i < l.length) : (l.map f).getD i [] = f (l.getD i []) := by
  rw [List.getD_eq_getElem?_getD, List.getD_eq_getElem?_getD, List.getElem?_map,
    List.getElem?_eq_getElem hi]
  rfl

/-- The frame-index entries written by `write_hmicfast_binary` read back as
the running offset and the payload size. -/
theorem readLE_indexBytes : ∀ (ps : List (List Nat)) (i off : Nat)
    (rest : List Nat), i < ps.length →
    readLE (indexBytes off ps ++ rest) (12 * i) 8 =
      (off + sumLen (ps.take i)) % 256 ^ 8 ∧
    readLE (indexBytes off ps ++ rest) (12 * i + 8) 4 =
      (ps.getD i []).length % 256 ^ 4 := by
  intro ps
  induction ps with
  | nil => intro i off rest hi; simp at hi
  | cons p t ih =>
    intro i off rest hi
    cases i with
    | zero =>
      constructor
      · have hhere := readLE_here [] 8 off
          (leBytes 4 p.length ++ (indexBytes (off + p.length) t ++ rest))
        simp only [List.nil_append, List.length_nil] at hhere
        rw [indexBytes]
        rw [show ((leBytes 8 off ++ leBytes 4 p.length ++
            indexBytes (off + p.length) t) ++ rest) =
          leBytes 8 off ++ (leBytes 4 p.length ++
            (indexBytes (off + p.length) t ++ rest)) from by
            simp [List.append_assoc]]
        rw [show 12 * 0 = 0 from rfl]
        rw [hhere]
        simp [sumLen]
      · have hhere := readLE_here (leBytes 8 off) 4 p.length
          (indexBytes (off + p.length) t ++ rest)
        rw [length_leBytes] at hhere
        rw [indexBytes]
        rw [show ((leBytes 8 off ++ leBytes 4 p.length ++
            indexBytes (off + p.length) t) ++ rest) =
          leBytes 8 off ++ (leBytes 4 p.length ++
            (indexBytes (off + p.length) t ++ rest)) from by
            simp [List.append_assoc]]
        rw [show 12 * 0 + 8 = 8 from rfl]
        rw [hhere]
        simp
    | succ i =>
      have h12 : ((leBytes 8 off ++ leBytes 4 p.length) : List Nat).length = 12 := by
        simp [length_leBytes]
      obtain ⟨ih1, ih2⟩ := ih i (off + p.length) rest (by
        simp only [List.length_cons] at hi
        omega)
      have heq : ((leBytes 8 off ++ leBytes 4 p.length ++
          indexBytes (off + p.length) t) ++ rest) =
          (leBytes 8 off ++ leBytes 4 p.length) ++
            (indexBytes (off + p.length) t ++ rest) := by
        simp [List.append_assoc]
      have hsum : off + sumLen ((p :: t).take (i + 1)) =
          off + p.length + sumLen (t.take i) := by
        simp only [List.take_succ_cons, sumLen, List.map_cons, List.sum_cons]
        omega
      constructor
      · rw [indexBytes, heq, readLE_append_right _ _ _ _ (by rw [h12]; omega), h12,
          show 12 * (i + 1) - 12 = 12 * i from by omega, ih1, hsum]
      · rw [indexBytes, heq, readLE_append_right _ _ _ _ (by rw [h12]; omega), h12,
          show 12 * (i + 1) + 8 - 12 = 12 * i + 8 from by omega, ih2,
          List.getD_cons_succ]

/-- Dropping the sizes of the first `i` payloads lands exactly at payload
`i`. -/
theorem flatten_drop_sumLen : ∀ (ps : List (List Nat)) (i : Nat), i < ps.length →
    ps.flatten.drop (sumLen (ps.take i)) =
      ps.getD i [] ++ (ps.drop (i + 1)).flatten := by
  intro ps
  induction ps with
  | nil => intro i hi; simp at hi
  | cons p t ih =>
    intro i hi
    cases i with
    | zero =>
      simp [sumLen, List.flatten_cons]
    | succ i =>
      simp only [List.take_succ_cons, List.flatten_cons, List.getD_cons_succ,
        List.drop_succ_cons]
      have hs : sumLen (p :: t.take i) = p.length + sumLen (t.take i) := by
        simp [sumLen]
      rw [hs, List.drop_append]
      exact ih i (by simp only [List.length_cons] at hi; omega)

theorem readLE_single (pre : List Nat) (v : Nat) (rest : List Nat) :
    readLE (pre ++ (v :: rest)) pre.length 1 = v := by
  rw [readLE, List.drop_left]
  simp [leValue]

/-- The width field written by the encoder reads back (mod the u32 range). -/
theorem parseHeader_width (w h fps N : Nat) (compress : Bool) (rest : List Nat) :
    (parseHeader (headerBytes w h fps N compress ++ rest)).width = w % 256 ^ 4 := by
  simp only [parseHeader]
  have h12 : ((hmicMagic ++ leBytes 4 1 : List Nat)).length = 12 := by
    simp [hmicMagic, length_leBytes]
  rw [show headerBytes w h fps N compress ++ rest =
      (hmicMagic ++ leBytes 4 1) ++ (leBytes 4 w ++ (leBytes 4 h ++ leBytes 4 fps ++
        leBytes 4 N ++ [0] ++ [if compress then 1 else 0] ++ leBytes 4 0 ++ [0] ++
        leBytes 8 0 ++ leBytes 8 59 ++ leBytes 8 0 ++ rest)) from by
      simp [headerBytes, List.append_assoc], ← h12, readLE_here]

/-- The height field reads back (mod the u32 range). -/
theorem parseHeader_height (w h fps N : Nat) (compress : Bool) (rest : List Nat) :
    (parseHeader (headerBytes w h fps N compress ++ rest)).height = h % 256 ^ 4 := by
  simp only [parseHeader]
  have h16 : ((hmicMagic ++ leBytes 4 1 ++ leBytes 4 w : List Nat)).length = 16 := by
    simp [hmicMagic, length_leBytes]
  rw [show headerBytes w h fps N compress ++ rest =
      (hmicMagic ++ leBytes 4 1 ++ leBytes 4 w) ++ (leBytes 4 h ++
        (leBytes 4 fps ++ leBytes 4 N ++ [0] ++ [if compress then 1 else 0] ++
          leBytes 4 0 ++ [0] ++ leBytes 8 0 ++ leBytes 8 59 ++ leBytes 8 0 ++
          rest)) from by
      simp [headerBytes, List.append_assoc], ← h16, readLE_here]

/-- The total_frames field reads back (mod the u32 range). -/
theorem parseHeader_total (w h fps N : Nat) (compress : Bool) (rest : List Nat) :
    (parseHeader (headerBytes w h fps N compress ++ rest)).total_frames =
      N % 256 ^ 4 := by
  simp only [parseHeader]
  have h24 : ((hmicMagic ++ leBytes 4 1 ++ leBytes 4 w ++ leBytes 4 h ++
      leBytes 4 fps : List Nat)).length = 24 := by
    simp [hmicMagic, length_leBytes]
  rw [show headerBytes w h fps N compress ++ rest =
      (hmicMagic ++ leBytes 4 1 ++ leBytes 4 w ++ leBytes 4 h ++ leBytes 4 fps) ++
        (leBytes 4 N ++ ([0] ++ [if compress then 1 else 0] ++ leBytes 4 0 ++
          [0] ++ leBytes 8 0 ++ leBytes 8 59 ++ leBytes 8 0 ++ rest)) from by
      simp [headerBytes, List.append_assoc], ← h24, readLE_here]

/-- The compressed flag reads back exactly. -/
theorem parseHeader_compressed (w h fps N : Nat) (compress : Bool)
    (rest : List Nat) :
    (parseHeader (headerBytes w h fps N compress ++ rest)).compressed =
      (if compress then 1 else 0) := by
  simp only [parseHeader]
  have h29 : ((hmicMagic ++ leBytes 4 1 ++ leBytes 4 w ++ leBytes 4 h ++
      leBytes 4 fps ++ leBytes 4 N ++ [0] : List Nat)).length = 29 := by
    simp [hmicMagic, length_leBytes]
  rw [show headerBytes w h fps N compress ++ rest =
      (hmicMagic ++ leBytes 4 1 ++ leBytes 4 w ++ leBytes 4 h ++ leBytes 4 fps ++
        leBytes 4 N ++ [0]) ++ ((if compress then 1 else 0) ::
          (leBytes 4 0 ++ [0] ++ leBytes 8 0 ++ leBytes 8 59 ++ leBytes 8 0 ++
            rest)) from by
      simp [headerBytes, List.append_assoc], ← h29, readLE_single]

/-- The frame_index_offset field reads back as 59 (the index follows the
header directly). -/
theorem parseHeader_fio (w h fps N : Nat) (compress : Bool) (rest : List Nat) :
    (parseHeader (headerBytes w h fps N compress ++ rest)).frame_index_offset =
      59 := by
  simp only [parseHeader]
  have h43 : ((hmicMagic ++ leBytes 4 1 ++ leBytes 4 w ++ leBytes 4 h ++
      leBytes 4 fps ++ leBytes 4 N ++ [0] ++ [if compress then 1 else 0] ++
      leBytes 4 0 ++ [0] ++ leBytes 8 0 : List Nat)).length = 43 := by
    simp [hmicMagic, length_leBytes]
  rw [show headerBytes w h fps N compress ++ rest =
      (hmicMagic ++ leBytes 4 1 ++ leBytes 4 w ++ leBytes 4 h ++ leBytes 4 fps ++
        leBytes 4 N ++ [0] ++ [if compress then 1 else 0] ++ leBytes 4 0 ++
        [0] ++ leBytes 8 0) ++ (leBytes 8 59 ++ (leBytes 8 0 ++ rest)) from by
      simp [headerBytes, List.append_assoc], ← h43, readLE_here]
  norm_num

/-- Claim C4: a file produced by `write_hmicfast_binary` round-trips — for
every in-range frame index `i`, `get_frame_data` returns exactly the raw
RGBA byte dump of frame `i`, in both the uncompressed (zero-copy slice of
the mapping) and the per-frame compressed mode.  zstd is abstracted as a
`comp`/`decomp` pair with `decomp (comp b) = some b`.  Side conditions:
the u32 header fields fit, every frame holds `w*h` pixels, payload sizes
fit u32 and the running file offsets fit u64. -/
theorem binary_roundtrip (w h fps : Nat) (frames : List (List RGBA))
    (comp : List Nat → List Nat) (decomp : List Nat → Option (List Nat))
    (compress : Bool) (i : Nat)
    (hw : w < 256 ^ 4) (hh : h < 256 ^ 4) (hN : frames.length < 256 ^ 4)
    (hfr : ∀ fr ∈ frames, fr.length = w * h)
    (hsz : ∀ fr ∈ frames, (framePayload comp compress fr).length < 256 ^ 4)
    (hoff : 59 + 12 * frames.length +
      sumLen (frames.map (framePayload comp compress)) < 256 ^ 8)
    (hdec : ∀ b, decomp (comp b) = some b)
    (hi : i < frames.length) :
    get_frame_data decomp (write_hmicfast_binary w h fps frames comp compress)
      (i : Int) = some (frameBytes (frames.getD i [])) := by
  have hfile : write_hmicfast_binary w h fps frames comp compress =
      headerBytes w h fps frames.length compress ++
        (indexBytes (59 + 12 * frames.length)
            (frames.map (framePayload comp compress)) ++
          (frames.map (framePayload comp compress)).flatten) := by
    rw [write_hmicfast_binary, List.append_assoc]
  have hplen : (frames.map (framePayload comp compress)).length =
      frames.length := by
    simp
  have hidx := readLE_indexBytes (frames.map (framePayload comp compress)) i
    (59 + 12 * frames.length) (frames.map (framePayload comp compress)).flatten
    (by rw [hplen]; exact hi)
  have hstle := sumLen_take_le (frames.map (framePayload comp compress)) i
  have hmem : frames.getD i [] ∈ frames := by
    rw [List.getD_eq_getElem?_getD, List.getElem?_eq_getElem hi,
      Option.getD_some]
    exact List.getElem_mem hi
  have hlen4 : (frameBytes (frames.getD i [])).length = 4 * (w * h) := by
    rw [length_frameBytes, hfr _ hmem]
  have hEntryOff : readLE (headerBytes w h fps frames.length compress ++
      (indexBytes (59 + 12 * frames.length)
          (frames.map (framePayload comp compress)) ++
        (frames.map (framePayload comp compress)).flatten)) (59 + 12 * i) 8 =
      59 + 12 * frames.length +
        sumLen ((frames.map (framePayload comp compress)).take i) := by
    rw [readLE_append_right _ _ _ _ (by rw [length_headerBytes]; omega),
      length_headerBytes, show 59 + 12 * i - 59 = 12 * i from by omega, hidx.1,
      Nat.mod_eq_of_lt (by omega)]
  have hEntrySize : readLE (headerBytes w h fps frames.length compress ++
      (indexBytes (59 + 12 * frames.length)
          (frames.map (framePayload comp compress)) ++
        (frames.map (framePayload comp compress)).flatten)) (59 + 12 * i + 8)
        4 =
      (framePayload comp compress (frames.getD i [])).length := by
    rw [readLE_append_right _ _ _ _ (by rw [length_headerBytes]; omega),
      length_headerBytes, show 59 + 12 * i + 8 - 59 = 12 * i + 8 from by omega,
      hidx.2, getD_map_payload _ _ _ hi, Nat.mod_eq_of_lt (hsz _ hmem)]
  have hdrop : (headerBytes w h fps frames.length compress ++
      (indexBytes (59 + 12 * frames.length)
          (frames.map (framePayload comp compress)) ++
        (frames.map (framePayload comp compress)).flatten)).drop
      (59 + 12 * frames.length +
        sumLen ((frames.map (framePayload comp compress)).take i)) =
      framePayload comp compress (frames.getD i []) ++
        ((frames.map (framePayload comp compress)).drop (i + 1)).flatten := by
    rw [show 59 + 12 * frames.length +
        sumLen ((frames.map (framePayload comp compress)).take i) =
        (headerBytes w h fps frames.length compress).length +
          (12 * frames.length +
            sumLen ((frames.map (framePayload comp compress)).take i)) from by
      rw [length_headerBytes]
      omega,
      List.drop_append,
      show 12 * frames.length +
        sumLen ((frames.map (framePayload comp compress)).take i) =
        (indexBytes (59 + 12 * frames.length)
            (frames.map (framePayload comp compress))).length +
          sumLen ((frames.map (framePayload comp compress)).take i) from by
      rw [length_indexBytes, hplen],
      List.drop_append, flatten_drop_sumLen _ i (by rw [hplen]; exact hi),
      getD_map_payload _ _ _ hi]
  rw [get_frame_data, hfile]
  simp only [parseHeader_width, parseHeader_height, parseHeader_total,
    parseHeader_compressed, parseHeader_fio, Nat.mod_eq_of_lt hw,
    Nat.mod_eq_of_lt hh, Nat.mod_eq_of_lt hN, Int.toNat_natCast]
  rw [if_neg (show ¬((i : Int) < 0 ∨ (frames.length : Int) ≤ (i : Int)) from by
    omega)]
  rw [hEntryOff,
    show 59 + 12 * frames.length +
        (59 + 12 * frames.length +
          sumLen ((frames.map (framePayload comp compress)).take i)) -
        (59 + 12 * frames.length) =
      59 + 12 * frames.length +
        sumLen ((frames.map (framePayload comp compress)).take i) from by
    omega,
    hdrop, hEntrySize]
  cases compress with
  | false =>
    rw [if_pos (show (if false then 1 else 0) = 0 from rfl),
      show framePayload comp false (frames.getD i []) =
        frameBytes (frames.getD i []) from rfl,
      List.take_left' hlen4]
  | true =>
    rw [if_neg (show ¬(if true then 1 else 0) = 0 from by decide),
      show framePayload comp true (frames.getD i []) =
        comp (frameBytes (frames.getD i [])) from rfl]
    rw [List.take_left, hdec]
    show (if (frameBytes (frames.getD i [])).length ≤ 4 * (w * h) then
        some (frameBytes (frames.getD i [])) else none) =
      some (frameBytes (frames.getD i []))
    rw [if_pos (le_of_eq hlen4)]

/-- Witness for C4: a one-frame, one-pixel video round-trips through the
container in both modes (with the identity as the compressor pair). -/
theorem binary_roundtrip_witness :
    get_frame_data some
        (write_hmicfast_binary 1 1 1 [[⟨1, 2, 3, 4⟩]] (fun b => b) false)
        ((0 : Nat) : Int) =
      some (frameBytes (([[⟨1, 2, 3, 4⟩]] : List (List RGBA)).getD 0 [])) ∧
    get_frame_data some
        (write_hmicfast_binary 1 1 1 [[⟨1, 2, 3, 4⟩]] (fun b => b) true)
        ((0 : Nat) : Int) =
      some (frameBytes (([[⟨1, 2, 3, 4⟩]] : List (List RGBA)).getD 0 [])) :=
  ⟨binary_roundtrip 1 1 1 [[⟨1, 2, 3, 4⟩]] (fun b => b) some false 0
      (by decide) (by decide) (by decide) (by decide) (by decide) (by decide)
      (fun b => rfl) (by decide),
    binary_roundtrip 1 1 1 [[⟨1, 2, 3, 4⟩]] (fun b => b) some true 0
      (by decide) (by decide) (by decide) (by decide) (by decide) (by decide)
      (fun b => rfl) (by decide)⟩

end Hmic
